import Mathlib

/-!
Verification of the QuickFIX-style dictionary importer
(`crates/fefix/src/fefix_core/dict/`): a shallow embedding of the raw
schema tree, the import pipeline of `quickfix_parser.rs`
(`parse_quickfix_xml`, `Fix::version`, `Fix::fields_that_start_groups`,
`Fix::topologically_sort_components`, `convert_items`) and the
symbol-table dictionary builder of `mod.rs`, together with theorems about
the importer's ordering, error and lookup behaviour.

Representation conventions used throughout:
* Rust `Vec<T>` used as a stack (`push`/`pop` at the end,
  `extend_from_slice` appending) is modelled as a Lean `List` holding the
  same stack with its top at the head; `extend_from_slice(&v)` therefore
  prepends `v.reverse`, and a `Vec` of queued items becomes the reversed
  list.  All other `Vec`s keep their order as Lean lists.
* `FnvHashMap` built by `collect` and `FnvHashMap::insert` overwrite on
  key collision, so their lookups are modelled as "latest binding wins".
* A Rust panic (`unwrap`/`expect`/indexing a missing key) is modelled as
  `Option.none` (or `ImportResult.panicked` at the pipeline's top level),
  kept distinct from an `Err` value actually returned to the caller.
* Machine integers (`u32`, `TagU32`) are modelled as `Nat`; no arithmetic
  in the modelled code can overflow or wrap.
-/

namespace Fefix

/-- Raw layout item of the source document, from the serde `enum Item` of
`quickfix_parser.rs`: a field reference, a repeating group with nested
items, or a component reference, each with its one-character required
marker. -/
inductive Item where
  | field (name : String) (required : Char)
  | group (name : String) (required : Char) (items : List Item)
  | component (name : String) (required : Char)

/-- Raw enumerated value record (serde `struct FieldEnum`): the literal
value (XML attribute `enum`, deserialized into the `name` field) and its
description. -/
structure RawFieldEnum where
  name : String
  description : String

/-- Raw field record (serde `struct Field` of `quickfix_parser.rs`):
tag number, name, datatype name and the optional list of permitted
values. -/
structure RawField where
  number : Nat
  name : String
  datatype : String
  values : Option (List RawFieldEnum)

/-- Raw component record (serde `struct Component`). -/
structure RawComponent where
  name : String
  items : List Item

/-- Raw message record (serde `struct Message`). -/
structure RawMessage where
  name : String
  msgtype : String
  msgcat : Option String
  items : List Item

/-- The deserialized root document (serde `struct Fix`); the wrapper
structs `Fields`/`Messages`/`Components`/`Header`/`Trailer` exist in the
source only to name the serde collection element and are flattened into
the lists they hold. -/
structure Fix where
  type : String
  major : String
  minor : String
  servicepack : String
  header : List Item
  trailer : List Item
  messages : List RawMessage
  components : List RawComponent
  fields : List RawField

/-- `Fix::version`: `format!("{}.{}.{}{}", type, major, minor, sp)` where
the `-SP{n}` suffix is appended only when the servicepack string is not
`"0"`. -/
def Fix.version (fix : Fix) : String :=
  fix.type ++ "." ++ fix.major ++ "." ++ fix.minor ++
    (if fix.servicepack ≠ "0" then "-SP" ++ fix.servicepack else "")

/-- Total number of item nodes in one raw item (a group counts itself plus
its nested items); the termination measure of the source's `Vec`-stack
loops. -/
def Item.nodes : Item → Nat
  | .field _ _ => 1
  | .component _ _ => 1
  | .group _ _ items => 1 + nodesList items
where
  /-- Total node count of a list of raw items. -/
  nodesList : List Item → Nat
  | [] => 0
  | i :: is => Item.nodes i + nodesList is

/-- The stack loop of `Fix::fields_that_start_groups`: pop an item from
the stack top; a group pushes its nested items back and records its
(counter-field) name; fields and component references are skipped.  The
stack is top-first (see the module header). -/
def group_names_loop : List Item → List String → List String
  | [], acc => acc
  | .group name _ inner :: rest, acc =>
      group_names_loop (inner.reverse ++ rest) (acc ++ [name])
  | .field _ _ :: rest, acc => group_names_loop rest acc
  | .component _ _ :: rest, acc => group_names_loop rest acc
termination_by stack _ => Item.nodes.nodesList stack
decreasing_by
  all_goals
    simp_wf
    have happ : ∀ a b : List Item,
        Item.nodes.nodesList (a ++ b) =
          Item.nodes.nodesList a + Item.nodes.nodesList b := by
      intro a b
      induction a with
      | nil => simp [Item.nodes.nodesList]
      | cons x xs ih => simp [Item.nodes.nodesList, ih] <;> omega
    have hrev : ∀ a : List Item,
        Item.nodes.nodesList a.reverse = Item.nodes.nodesList a := by
      intro a
      induction a with
      | nil => rfl
      | cons x xs ih =>
          simp [List.reverse_cons, happ, ih, Item.nodes.nodesList] <;> omega
    simp [Item.nodes.nodesList, Item.nodes, happ, hrev] <;> omega

/-- `Fix::fields_that_start_groups`: the names used to introduce a group
anywhere in the layout trees of the header, the trailer, every component
and every message (groups nested in groups included).  The source seeds
one `Vec` stack with those four item lists in this order and runs the pop
loop; the seed `Vec` becomes the reversed concatenation (top-first). -/
def Fix.fields_that_start_groups (fix : Fix) : List String :=
  group_names_loop
    ((fix.header ++ fix.trailer
        ++ (fix.components.map RawComponent.items).flatten
        ++ (fix.messages.map RawMessage.items).flatten).reverse) []

/-- The stack loop collecting the direct component dependencies of one
item list (`Fix::topologically_sort_components`, the `adj_list` closure):
component references are recorded, groups push their nested items, plain
fields are skipped. -/
def deps_loop : List Item → List String → List String
  | [], acc => acc
  | .component name _ :: rest, acc => deps_loop rest (acc ++ [name])
  | .group _ _ inner :: rest, acc => deps_loop (inner.reverse ++ rest) acc
  | .field _ _ :: rest, acc => deps_loop rest acc
termination_by stack _ => Item.nodes.nodesList stack
decreasing_by
  all_goals
    simp_wf
    have happ : ∀ a b : List Item,
        Item.nodes.nodesList (a ++ b) =
          Item.nodes.nodesList a + Item.nodes.nodesList b := by
      intro a b
      induction a with
      | nil => simp [Item.nodes.nodesList]
      | cons x xs ih => simp [Item.nodes.nodesList, ih] <;> omega
    have hrev : ∀ a : List Item,
        Item.nodes.nodesList a.reverse = Item.nodes.nodesList a := by
      intro a
      induction a with
      | nil => rfl
      | cons x xs ih =>
          simp [List.reverse_cons, happ, ih, Item.nodes.nodesList] <;> omega
    simp [Item.nodes.nodesList, Item.nodes, happ, hrev] <;> omega

/-- Direct component dependencies of a component body: the `while let
Some(item) = items.pop()` scan seeded with a clone of the component's
items (top-first, hence reversed). -/
def component_deps (items : List Item) : List String :=
  deps_loop items.reverse []

/-- Lookup in an association list built like a `FnvHashMap` from an
iterator: on duplicate keys the latest binding wins. -/
def lookup_last {α : Type} (l : List (String × α)) (k : String) : Option α :=
  l.foldl (fun acc p => if p.1 = k then some p.2 else acc) none

/-- The `adj_list` of `Fix::topologically_sort_components`: each component
name mapped to the component and its direct component dependencies. -/
def mk_adj (comps : List RawComponent) :
    List (String × RawComponent × List String) :=
  comps.map (fun c => (c.name, c, component_deps c.items))

/-- The adjacency entries whose component is neither visited nor visiting;
first component of the sort loop's termination measure. -/
def unvisited_keys (adj : List (String × RawComponent × List String))
    (visited visiting : List String) :
    List (String × RawComponent × List String) :=
  adj.filter (fun p => decide (p.1 ∉ visited) && decide (p.1 ∉ visiting))

/-- The `while let Some(component_name) = queue.pop()` loop of
`Fix::topologically_sort_components`, with the queue `Vec` modelled
top-first.  A name already `visiting` is emitted (its second pop),
a `visited` name is skipped, and a fresh name re-pushes itself followed
by its dependencies.  `adj_list[&name]` on a missing key is a Rust panic,
modelled as `none`. -/
def sort_loop (adj : List (String × RawComponent × List String)) :
    List RawComponent → List String → List String → List String →
    Option (List RawComponent)
  | sorted, _, _, [] => some sorted
  | sorted, visited, visiting, n :: q =>
    if hv : n ∈ visiting then
      match lookup_last adj n with
      | none => none
      | some cd =>
          sort_loop adj (sorted ++ [cd.1]) (n :: visited) (visiting.erase n) q
    else if hd : n ∈ visited then
      sort_loop adj sorted visited visiting q
    else
      match h : lookup_last adj n with
      | none => none
      | some cd =>
          sort_loop adj sorted visited (n :: visiting) (cd.2.reverse ++ n :: q)
termination_by _ visited visiting queue =>
  ((unvisited_keys adj visited visiting).length, queue.length)
decreasing_by
  · -- emitting pop: the unvisited set is unchanged, the queue shrinks
    simp_wf
    have hset : unvisited_keys adj (n :: visited) (visiting.erase n) =
        unvisited_keys adj visited visiting := by
      unfold unvisited_keys
      apply List.filter_congr
      intro p _
      by_cases hpn : p.1 = n
      · have h2 : p.1 ∈ visiting := by rw [hpn]; exact hv
        simp [hpn, h2]
        exact fun _ => hv
      · have h2 : (p.1 ∈ visiting.erase n) ↔ (p.1 ∈ visiting) :=
          List.mem_erase_of_ne hpn
        simp [List.mem_cons, hpn, h2]
    rw [hset]
    exact Prod.Lex.right _ (by simp)
  · -- skipping pop: everything unchanged, the queue shrinks
    simp_wf
    exact Prod.Lex.right _ (by simp)
  · -- first visit: the unvisited set strictly shrinks
    simp_wf
    apply Prod.Lex.left
    have hmem : (n, cd) ∈ adj := by
      have hfold : ∀ (l : List (String × RawComponent × List String))
          (acc : Option (RawComponent × List String)),
          l.foldl (fun acc p => if p.1 = n then some p.2 else acc) acc
            = some cd →
          (n, cd) ∈ l ∨ acc = some cd := by
        intro l
        induction l with
        | nil => intro acc hacc; exact Or.inr hacc
        | cons p ps ih =>
            intro acc hacc
            rcases ih _ hacc with h1 | h1
            · exact Or.inl (List.mem_cons_of_mem _ h1)
            · by_cases hp : p.1 = n
              · refine Or.inl ?_
                rcases p with ⟨p1, p2⟩
                simp only at hp
                subst hp
                simp at h1
                simp [h1]
              · simp [hp] at h1
                exact Or.inr h1
      rcases hfold adj none h with h1 | h1
      · exact h1
      · simp at h1
    have hun : (n, cd) ∈ unvisited_keys adj visited visiting := by
      unfold unvisited_keys
      refine List.mem_filter.mpr ⟨hmem, ?_⟩
      simp [hd, hv]
    have hsub : unvisited_keys adj visited (n :: visiting)
        = (unvisited_keys adj visited visiting).filter
            (fun p => !decide (p.1 = n)) := by
      unfold unvisited_keys
      rw [List.filter_filter]
      apply List.filter_congr
      intro p _
      by_cases hpn : p.1 = n
      · simp [hpn]
      · simp [List.mem_cons, hpn, Bool.and_comm, Bool.and_left_comm]
    rw [hsub]
    have hlt : ∀ (l : List (String × RawComponent × List String)),
        (n, cd) ∈ l →
        (l.filter (fun p => !decide (p.1 = n))).length < l.length := by
      intro l hl
      induction l with
      | nil => cases hl
      | cons x xs ih =>
          by_cases hx : x.1 = n
          · have hp : (!decide (x.1 = n)) = false := by simp [hx]
            rw [List.filter_cons, hp]
            simp only [Bool.false_eq_true, if_false, List.length_cons]
            exact Nat.lt_succ_of_le (List.length_filter_le _ _)
          · have hp : (!decide (x.1 = n)) = true := by simp [hx]
            rw [List.filter_cons, hp]
            simp only [if_true, List.length_cons]
            have h1 : (n, cd) ∈ xs := by
              rcases List.mem_cons.mp hl with h2 | h2
              · exact absurd (by rw [← h2] : x.1 = n) hx
              · exact h2
            exact Nat.succ_lt_succ (ih h1)
    exact hlt _ hun

/-- `Fix::topologically_sort_components`: build the adjacency map, seed
the queue with all component names in source order (a `Vec` popped from
the back, hence reversed here) and run the loop; the source then replaces
`self.components` with the result, which we return. -/
def Fix.topologically_sort_components (fix : Fix) : Option (List RawComponent) :=
  sort_loop (mk_adj fix.components) [] [] []
    ((fix.components.map RawComponent.name).reverse)

/-- A datatype entity (`builder.rs`, `struct Datatype`): name,
description and example values. -/
structure Datatype where
  name : String
  description : String
  examples : List String

/-- `Datatype::new` (`builder.rs`): a datatype with the given name and
empty documentation fields. -/
def Datatype.new (name : String) : Datatype :=
  { name := name, description := "", examples := [] }

/-- A (value, description) pair restricting a field's values; the parser
builds these with a struct literal `FieldEnum { value, description }`. -/
structure FieldEnum where
  value : String
  description : String

/-- Modelled from the spec: the `types::Field` entity as used by
`parse_quickfix_xml` (a three-argument `Field::new` and the fields
`value_restrictions` and `is_group`) is not among the given sources; per
the spec a Field carries a name, a positive integer tag, an owning
reference to its Datatype, an optional ordered list of permitted
value/description pairs (absent meaning unrestricted) and a boolean
marking a repeating-group counter field. -/
structure Field where
  name : String
  tag : Nat
  datatype : Datatype
  value_restrictions : Option (List FieldEnum)
  is_group : Bool

/-- Modelled from the spec: `Field::new(name, number, datatype)` as
called by the parser; like `FieldData::new` in `types.rs`, the optional
attributes start empty (no value restrictions) and the group flag starts
cleared. -/
def Field.new (name : String) (tag : Nat) (datatype : Datatype) : Field :=
  { name := name, tag := tag, datatype := datatype,
    value_restrictions := none, is_group := false }

/-- `Field::enums` (`types.rs`): `None` when the field allows any value,
otherwise the ordered permitted values. -/
def Field.enums (f : Field) : Option (List FieldEnum) :=
  f.value_restrictions

/-- FIXML component attributes (`types.rs`, `enum
FixmlComponentAttributes`). -/
inductive FixmlComponentAttributes where
  | xml
  | block (is_repeating is_implicit is_optimized : Bool)
  | message

mutual
/-- A resolved component (`types.rs`, `ComponentData`): id, FIXML
attributes, resolved layout, category id, name and optional abbreviated
name.  Mutually recursive with `LayoutItem` because a layout item holds
the resolved `Component` value it references. -/
inductive Component where
  | mk (id : Nat) (component_type : FixmlComponentAttributes)
      (layout_items : List LayoutItem) (category_iid : Nat)
      (name : String) (abbr_name : Option String)

/-- A resolved layout item: the required flag and the payload. -/
inductive LayoutItem where
  | mk (required : Bool) (kind : LayoutItemKind)

/-- The payload of a resolved layout item (`quickfix_parser.rs`
`LayoutItemKind`): a field, a group (counter field plus nested resolved
contents), or a component. -/
inductive LayoutItemKind where
  | field (f : Field)
  | group (first_field : Field) (contents : List LayoutItem)
  | component (c : Component)
end

/-- The name of a resolved component. -/
def Component.name : Component → String
  | .mk _ _ _ _ name _ => name

/-- The resolved layout of a component. -/
def Component.layout_items : Component → List LayoutItem
  | .mk _ _ items _ _ _ => items

/-- `Component::new(id, name, category_iid)` (`types.rs`,
`ComponentData::new`): message-typed FIXML attributes, empty layout, no
abbreviated name. -/
def Component.new (id : Nat) (name : String) (category_iid : Nat) : Component :=
  .mk id .message [] category_iid name none

/-- Replacing a component's layout, as the parser's
`component.layout_items = convert_items(&dict, ...)` assignment does. -/
def Component.with_layout : Component → List LayoutItem → Component
  | .mk id ct _ cat name ab, items => .mk id ct items cat name ab

/-- The required flag of a resolved layout item. -/
def LayoutItem.required : LayoutItem → Bool
  | .mk required _ => required

/-- The payload of a resolved layout item. -/
def LayoutItem.kind : LayoutItem → LayoutItemKind
  | .mk _ kind => kind

/-- A message entity.  Modelled from the spec: the two-argument
`types::Message::new(msgtype, name)` called by the parser is not among
the given sources; per the spec a Message carries its wire msg-type
code, its name and an ordered layout, and like `MessageData::new` in
`mod.rs` the constructor takes no layout, so the layout starts empty. -/
structure Message where
  msg_type : String
  name : String
  layout_items : List LayoutItem

/-- Modelled from the spec: `Message::new(msgtype, name)` — see
`Message`. -/
def Message.new (msgtype : String) (name : String) : Message :=
  { msg_type := msgtype, name := name, layout_items := [] }

/-- Modelled from the spec: the Dictionary aggregate used by
`parse_quickfix_xml` (its `new`/`add_*`/`*_by_name` methods are not
among the given sources).  It owns every entity collection in
registration order together with by-name lookup maps. -/
structure Dictionary where
  version : String
  datatypes : List Datatype
  fields : List Field
  components : List Component
  messages : List Message

/-- Modelled from the spec: `Dictionary::new(version)` — an empty
dictionary carrying the version string. -/
def Dictionary.new (version : String) : Dictionary :=
  { version := version, datatypes := [], fields := [], components := [],
    messages := [] }

/-- Lookup through a by-name hash-map index over a collection in
registration order: inserting overwrites, so the lookup returns the most
recently registered entity with that name. -/
def last_with_name {α : Type} (key : α → String) (l : List α)
    (n : String) : Option α :=
  l.foldl (fun acc x => if key x = n then some x else acc) none

/-- Modelled from the spec: `Dictionary::datatype_by_name`. -/
def Dictionary.datatype_by_name (d : Dictionary) (n : String) : Option Datatype :=
  last_with_name Datatype.name d.datatypes n

/-- Modelled from the spec: `Dictionary::field_by_name`. -/
def Dictionary.field_by_name (d : Dictionary) (n : String) : Option Field :=
  last_with_name Field.name d.fields n

/-- Modelled from the spec: `Dictionary::component_by_name`. -/
def Dictionary.component_by_name (d : Dictionary) (n : String) : Option Component :=
  last_with_name Component.name d.components n

/-- Modelled from the spec: `Dictionary::message_by_name`. -/
def Dictionary.message_by_name (d : Dictionary) (n : String) : Option Message :=
  last_with_name Message.name d.messages n

/-- Modelled from the spec: `Dictionary::add_datatype` registers a
datatype at the end of the collection. -/
def Dictionary.add_datatype (d : Dictionary) (dt : Datatype) : Dictionary :=
  { d with datatypes := d.datatypes ++ [dt] }

/-- Modelled from the spec: `Dictionary::add_field`. -/
def Dictionary.add_field (d : Dictionary) (f : Field) : Dictionary :=
  { d with fields := d.fields ++ [f] }

/-- Modelled from the spec: `Dictionary::add_component`. -/
def Dictionary.add_component (d : Dictionary) (c : Component) : Dictionary :=
  { d with components := d.components ++ [c] }

/-- Modelled from the spec: `Dictionary::add_message`. -/
def Dictionary.add_message (d : Dictionary) (m : Message) : Dictionary :=
  { d with messages := d.messages ++ [m] }

/-- An error of the external XML deserializer (`quick_xml::DeError`),
opaque to the importer. -/
structure DeError where
  msg : String

/-- The observable outcome of `parse_quickfix_xml`: an `Ok(dictionary)`
return, an `Err` value actually returned to the caller, or a Rust panic
(every `unwrap` in the function's body). -/
inductive ImportResult where
  | ok (dict : Dictionary)
  | err (e : DeError)
  | panicked

/-- Whether an import outcome is a returned `Err` value. -/
def ImportResult.is_err : ImportResult → Bool
  | .err _ => true
  | _ => false

/-- Whether an import outcome returned a dictionary. -/
def ImportResult.is_ok : ImportResult → Bool
  | .ok _ => true
  | _ => false

/-- `convert_items` (`quickfix_parser.rs`): recursively convert raw
items into resolved layout items, looking fields and components up by
name; the source's `unwrap` on a failed lookup is a panic, modelled as
`none`.  The required marker converts as `required == 'Y'`. -/
def convert_items (dict : Dictionary) : List Item → Option (List LayoutItem)
  | [] => some []
  | .field name required :: rest =>
      match dict.field_by_name name with
      | none => none
      | some f =>
          match convert_items dict rest with
          | none => none
          | some l => some (.mk (required = 'Y') (.field f) :: l)
  | .group name required inner :: rest =>
      match dict.field_by_name name with
      | none => none
      | some first_field =>
          match convert_items dict inner with
          | none => none
          | some contents =>
              match convert_items dict rest with
              | none => none
              | some l =>
                  some (.mk (required = 'Y') (.group first_field contents) :: l)
  | .component name required :: rest =>
      match dict.component_by_name name with
      | none => none
      | some c =>
          match convert_items dict rest with
          | none => none
          | some l => some (.mk (required = 'Y') (.component c) :: l)

/-- The field-import loop body of `parse_quickfix_xml` for one raw field
record, after the datatype lookup succeeded: build the field, then — only
inside the branch that copies value records — mark it as a group counter
when its name starts a group somewhere. -/
def build_field (group_names : List String) (dt : Datatype) (f : RawField) :
    Field :=
  let base := Field.new f.name f.number dt
  match f.values with
  | none => base
  | some vs =>
      { base with
        value_restrictions :=
          some (vs.map (fun v => { value := v.name, description := v.description })),
        is_group := group_names.contains f.name }

/-- The datatype-import loop of `parse_quickfix_xml`: for each raw field
record, register its datatype name unless already present. -/
def import_datatypes : List RawField → Dictionary → Dictionary
  | [], d => d
  | f :: fs, d =>
      import_datatypes fs
        (if (d.datatype_by_name f.datatype).isNone then
          d.add_datatype (Datatype.new f.datatype)
        else d)

/-- The field-import loop of `parse_quickfix_xml`; the `unwrap` on the
datatype lookup is a panic, modelled as `none`. -/
def import_fields (group_names : List String) :
    List RawField → Dictionary → Option Dictionary
  | [], d => some d
  | f :: fs, d =>
      match d.datatype_by_name f.datatype with
      | none => none
      | some dt => import_fields group_names fs (d.add_field (build_field group_names dt f))

/-- The component-import loop of `parse_quickfix_xml`: components in
topologically sorted order, each converted against the dictionary built
so far and registered. -/
def import_components : List RawComponent → Dictionary → Option Dictionary
  | [], d => some d
  | c :: cs, d =>
      match convert_items d c.items with
      | none => none
      | some layout =>
          import_components cs
            (d.add_component ((Component.new 0 c.name 0).with_layout layout))

/-- The message-import loop of `parse_quickfix_xml`: each raw message is
registered as `Message::new(m.msgtype, m.name)`; the raw item list of
the message is not used. -/
def import_messages : List RawMessage → Dictionary → Dictionary
  | [], d => d
  | m :: ms, d => import_messages ms (d.add_message (Message.new m.msgtype m.name))

/-- `parse_quickfix_xml`: the whole import pipeline.  The input is the
result of the external `from_str` deserialization; the source immediately
`unwrap`s it, so a deserialization error becomes a panic, and the
function can never construct the `Err` variant of its return type.  The
stages run in source order: version, datatypes, group-counter pre-pass,
fields, topological sort, components, messages, header, trailer. -/
def parse_quickfix_xml (input : Except DeError Fix) : ImportResult :=
  match input with
  | .error _ => .panicked
  | .ok fix =>
    let dict := Dictionary.new fix.version
    let dict := import_datatypes fix.fields dict
    let group_names := fix.fields_that_start_groups
    match import_fields group_names fix.fields dict with
    | none => .panicked
    | some dict =>
      match fix.topologically_sort_components with
      | none => .panicked
      | some sorted_comps =>
        match import_components sorted_comps dict with
        | none => .panicked
        | some dict =>
          let dict := import_messages fix.messages dict
          match convert_items dict fix.header with
          | none => .panicked
          | some header_items =>
            let dict := dict.add_component
              ((Component.new 0 "StandardHeader" 0).with_layout header_items)
            match convert_items dict fix.trailer with
            | none => .panicked
            | some trailer_items =>
              .ok (dict.add_component
                ((Component.new 0 "StandardTrailer" 0).with_layout trailer_items))

/-- The direct component dependencies of the component registered under a
name in the adjacency map (empty for an unknown name). -/
def deps_of_name (comps : List RawComponent) (n : String) : List String :=
  match lookup_last (mk_adj comps) n with
  | some cd => cd.2
  | none => []

/-- The component dependency graph: `DepEdge comps a b` when the
component named `a` references the component named `b` (directly,
anywhere in its layout tree). -/
def DepEdge (comps : List RawComponent) (a b : String) : Prop :=
  b ∈ deps_of_name comps a

/-- A component list is dependency-ordered when every component's direct
dependencies name only components appearing strictly earlier. -/
inductive SortedOk : List RawComponent → Prop where
  | nil : SortedOk []
  | snoc (l : List RawComponent) (c : RawComponent) :
      SortedOk l →
      (∀ d ∈ component_deps c.items, d ∈ l.map RawComponent.name) →
      SortedOk (l ++ [c])

/-- Structure of the sort loop's queue while a chain of components is
`visiting`: reading the queue from its top, it splits into a pending
segment `A` and the re-pushed sentinel occurrence `u` for each visiting
component, over a remainder of known names.  `uppers` are the sentinels
lying above the current level. -/
inductive QInv (comps : List RawComponent) (visited : List String) :
    List String → List String → List String → Prop where
  | base (uppers R : List String)
      (hR : ∀ x ∈ R, x ∈ comps.map RawComponent.name) :
      QInv comps visited uppers [] R
  | step (uppers : List String) (u : String) (vs A q : List String)
      (hA : ∀ a ∈ A, a ∈ comps.map RawComponent.name)
      (hreach : ∀ a ∈ A, Relation.TransGen (DepEdge comps) u a)
      (hdeps : ∀ d ∈ deps_of_name comps u, d ∈ visited ∨ d ∈ A ∨ d ∈ uppers)
      (hchain : ∀ x ∈ vs, Relation.TransGen (DepEdge comps) x u)
      (hrest : QInv comps visited (u :: uppers) vs q) :
      QInv comps visited uppers (u :: vs) (A ++ u :: q)

/-- The sort loop's full invariant: the emitted prefix is
dependency-ordered and mirrored by `visited`, the `visiting` chain is
clean, every component name is still accounted for, and the queue has the
`QInv` shape. -/
structure LoopInv (comps : List RawComponent) (sorted : List RawComponent)
    (visited visiting queue : List String) : Prop where
  sorted_ok : SortedOk sorted
  vis_eq : ∀ x, x ∈ visited ↔ x ∈ sorted.map RawComponent.name
  sorted_nd : (sorted.map RawComponent.name).Nodup
  sorted_mem : ∀ c ∈ sorted, c ∈ comps
  vis_keys : ∀ x ∈ visiting, x ∈ comps.map RawComponent.name
  vis_nd : visiting.Nodup
  vis_disj : ∀ x ∈ visiting, x ∉ visited
  cover : ∀ n ∈ comps.map RawComponent.name,
    n ∈ visited ∨ n ∈ visiting ∨ n ∈ queue
  qinv : QInv comps visited [] visiting queue

/-- Remaining work of the sort loop outside the queue: one pop plus one
push per dependency for every component not yet visited or visiting. -/
def unvisited_cost (adj : List (String × RawComponent × List String))
    (visited visiting : List String) : Nat :=
  ((unvisited_keys adj visited visiting).map (fun p => 1 + p.2.2.length)).sum

/-! Concrete input documents used by the counterexamples, the code-bug
evaluations and the witnesses. -/

/-- A document whose two components reference each other (a dependency
cycle). -/
def cyclic_doc : Fix :=
  { type := "FIX", major := "4", minor := "4", servicepack := "0",
    header := [], trailer := [], messages := [],
    components :=
      [ { name := "CompA", items := [Item.component "CompB" 'N'] },
        { name := "CompB", items := [Item.component "CompA" 'N'] } ],
    fields := [] }

/-- A document whose two components have no dependencies at all, in
source order CompA, CompB. -/
def c8_doc : Fix :=
  { type := "FIX", major := "4", minor := "4", servicepack := "0",
    header := [], trailer := [], messages := [],
    components := [ { name := "CompA", items := [] },
                    { name := "CompB", items := [] } ],
    fields := [] }

/-- A document defining message "Heartbeat" (msg-type "0") whose item
list contains the optional field "TestReqID". -/
def hb_doc : Fix :=
  { type := "FIX", major := "4", minor := "4", servicepack := "0",
    header := [], trailer := [],
    messages :=
      [ { name := "Heartbeat", msgtype := "0", msgcat := none,
          items := [Item.field "TestReqID" 'N'] } ],
    components := [],
    fields := [ { number := 112, name := "TestReqID", datatype := "STRING",
                  values := none } ] }

/-- The dictionary `parse_quickfix_xml` produces for `hb_doc`. -/
def hb_dict : Dictionary :=
  { version := "FIX.4.4",
    datatypes := [ { name := "STRING", description := "", examples := [] } ],
    fields :=
      [ { name := "TestReqID", tag := 112,
          datatype := { name := "STRING", description := "", examples := [] },
          value_restrictions := none, is_group := false } ],
    components :=
      [ Component.mk 0 .message [] 0 "StandardHeader" none,
        Component.mk 0 .message [] 0 "StandardTrailer" none ],
    messages := [ { msg_type := "0", name := "Heartbeat", layout_items := [] } ] }

/-- A document whose field "NoLines" has no enumerated values and is used
as the counter of a repeating group inside a message layout. -/
def grp_doc : Fix :=
  { type := "FIX", major := "4", minor := "4", servicepack := "0",
    header := [], trailer := [],
    messages :=
      [ { name := "MsgM", msgtype := "m", msgcat := none,
          items := [Item.group "NoLines" 'Y' [Item.field "Sym" 'N']] } ],
    components := [],
    fields :=
      [ { number := 100, name := "NoLines", datatype := "NUMINGROUP",
          values := none },
        { number := 101, name := "Sym", datatype := "STRING",
          values := none } ] }

/-- The dictionary `parse_quickfix_xml` produces for `grp_doc`. -/
def grp_dict : Dictionary :=
  { version := "FIX.4.4",
    datatypes :=
      [ { name := "NUMINGROUP", description := "", examples := [] },
        { name := "STRING", description := "", examples := [] } ],
    fields :=
      [ { name := "NoLines", tag := 100,
          datatype := { name := "NUMINGROUP", description := "", examples := [] },
          value_restrictions := none, is_group := false },
        { name := "Sym", tag := 101,
          datatype := { name := "STRING", description := "", examples := [] },
          value_restrictions := none, is_group := false } ],
    components :=
      [ Component.mk 0 .message [] 0 "StandardHeader" none,
        Component.mk 0 .message [] 0 "StandardTrailer" none ],
    messages := [ { msg_type := "m", name := "MsgM", layout_items := [] } ] }

/-- A document with a field carrying three enumerated values and a field
carrying none. -/
def enum_doc : Fix :=
  { type := "FIX", major := "4", minor := "4", servicepack := "0",
    header := [], trailer := [], messages := [], components := [],
    fields :=
      [ { number := 28, name := "IOITransType", datatype := "INT",
          values := some [ { name := "N", description := "NEW" },
                           { name := "C", description := "CANCEL" },
                           { name := "R", description := "REPLACE" } ] },
        { number := 36, name := "NewSeqNo", datatype := "INT",
          values := none } ] }

/-- The dictionary `parse_quickfix_xml` produces for `enum_doc`. -/
def enum_dict : Dictionary :=
  { version := "FIX.4.4",
    datatypes := [ { name := "INT", description := "", examples := [] } ],
    fields :=
      [ { name := "IOITransType", tag := 28,
          datatype := { name := "INT", description := "", examples := [] },
          value_restrictions :=
            some [ { value := "N", description := "NEW" },
                   { value := "C", description := "CANCEL" },
                   { value := "R", description := "REPLACE" } ],
          is_group := false },
        { name := "NewSeqNo", tag := 36,
          datatype := { name := "INT", description := "", examples := [] },
          value_restrictions := none, is_group := false } ],
    components :=
      [ Component.mk 0 .message [] 0 "StandardHeader" none,
        Component.mk 0 .message [] 0 "StandardTrailer" none ],
    messages := [] }

/-- A two-component document with one dependency: "Outer" references
"Inner". -/
def wit_doc : Fix :=
  { type := "FIX", major := "4", minor := "4", servicepack := "0",
    header := [], trailer := [], messages := [],
    components :=
      [ { name := "Outer", items := [Item.component "Inner" 'Y'] },
        { name := "Inner", items := [Item.field "Fld" 'N'] } ],
    fields := [] }

/-- A document with version attributes `FIX`, `5`, `0` and the given
servicepack string, and no content. -/
def version_doc (sp : String) : Fix :=
  { type := "FIX", major := "5", minor := "0", servicepack := sp,
    header := [], trailer := [], messages := [], components := [],
    fields := [] }

end Fefix

namespace Fefix.modrs

/-- The symbol-table key (`mod.rs`, `symbol_table::Key`): one tagged key
type spanning every by-name/by-tag index of the dictionary. -/
inductive Key where
  | abbreviation (s : String)
  | categoryByName (s : String)
  | componentByName (s : String)
  | datatypeByName (s : String)
  | fieldByTag (t : Nat)
  | fieldByName (s : String)
  | messageByName (s : String)
  | messageByMsgType (s : String)
deriving DecidableEq

/-- `SymbolTable = FnvHashMap<Key, InternalId>`, modelled as the list of
insertions, newest first; `insert` overwrites, so lookup takes the first
(most recent) binding. -/
def SymbolTable : Type := List (Key × Nat)

/-- `FnvHashMap::insert`: record the newest binding. -/
def SymbolTable.insert (st : SymbolTable) (k : Key) (v : Nat) : SymbolTable :=
  (k, v) :: st

/-- `FnvHashMap::get`: the most recent binding of the key, if any. -/
def SymbolTable.get (st : SymbolTable) (k : Key) : Option Nat :=
  ((st : List (Key × Nat)).find? (fun p => p.1 = k)).map Prod.snd

/-- Modelled from the spec: the primitive datatype enum `FixDatatype`
(`datatype.rs`, not among the given sources) as a name-carrying value. -/
structure FixDatatype where
  name : String

/-- A datatype entry (`mod.rs`, `DatatypeData`). -/
structure DatatypeData where
  datatype : FixDatatype
  description : String
  examples : List String

/-- An abbreviation entry (`mod.rs`, `AbbreviationData`). -/
structure AbbreviationData where
  abbreviation : String
  is_last : Bool

/-- A category entry (`mod.rs`, `CategoryData`). -/
structure CategoryData where
  name : String
  fixml_filename : String

/-- A value-restriction entry (`mod.rs`, `FieldEnumData`). -/
structure FieldEnumData where
  value : String
  description : String

/-- A field entry (`mod.rs`, `FieldData`): tags are `u32`, internal ids
index the owning dictionary's entity vectors. -/
structure FieldData where
  name : String
  tag : Nat
  data_type_iid : Nat
  associated_data_tag : Option Nat
  value_restrictions : Option (List FieldEnumData)
  abbr_name : Option String
  base_category_id : Option Nat
  base_category_abbr_name : Option String
  required : Bool
  description : Option String

mutual
/-- A layout item payload (`mod.rs`, `LayoutItemKindData`): stable
internal ids instead of resolved values. -/
inductive LayoutItemKindData where
  | component (iid : Nat)
  | group (len_field_iid : Nat) (items : List LayoutItemData)
  | field (iid : Nat)

/-- A layout item (`mod.rs`, `LayoutItemData`). -/
inductive LayoutItemData where
  | mk (required : Bool) (kind : LayoutItemKindData)
end

/-- A component entry (`mod.rs`, `ComponentData`). -/
structure ComponentData where
  id : Nat
  layout_items : List LayoutItemData
  category_iid : Nat
  name : String
  abbr_name : Option String

/-- A message entry (`mod.rs`, `MessageData`). -/
structure MessageData where
  component_id : Nat
  msg_type : String
  name : String
  category_iid : Nat
  section_id : String
  layout_items : List LayoutItemData
  abbr_name : Option String
  required : Bool
  description : String
  elaboration : Option String

/-- The dictionary builder (`mod.rs`, `DictionaryBuilder`): the symbol
table plus one vector per entity kind. -/
structure DictionaryBuilder where
  version : String
  symbol_table : SymbolTable
  abbreviations : List AbbreviationData
  data_types : List DatatypeData
  fields : List FieldData
  components : List ComponentData
  messages : List MessageData
  categories : List CategoryData
  header : List FieldData

/-- `DictionaryBuilder::new`. -/
def DictionaryBuilder.new (version : String) : DictionaryBuilder :=
  { version := version, symbol_table := ([] : List (Key × Nat)),
    abbreviations := [], data_types := [], fields := [], components := [],
    messages := [], categories := [], header := [] }

/-- `DictionaryBuilder::add_field`: the fresh internal id is the current
length of the field vector; the name key and then the tag key are
inserted, and the field is pushed.  The id the source returns is
determined by the state and omitted. -/
def DictionaryBuilder.add_field (b : DictionaryBuilder) (field : FieldData) :
    DictionaryBuilder :=
  let iid := b.fields.length
  { b with
    symbol_table :=
      (b.symbol_table.insert (Key.fieldByName field.name) iid).insert
        (Key.fieldByTag field.tag) iid,
    fields := b.fields ++ [field] }

/-- `DictionaryBuilder::add_message`. -/
def DictionaryBuilder.add_message (b : DictionaryBuilder) (message : MessageData) :
    DictionaryBuilder :=
  let iid := b.messages.length
  { b with
    symbol_table :=
      (b.symbol_table.insert (Key.messageByName message.name) iid).insert
        (Key.messageByMsgType message.msg_type) iid,
    messages := b.messages ++ [message] }

/-- `DictionaryBuilder::add_component`. -/
def DictionaryBuilder.add_component (b : DictionaryBuilder)
    (component : ComponentData) : DictionaryBuilder :=
  let iid := b.components.length
  { b with
    symbol_table :=
      b.symbol_table.insert (Key.componentByName component.name) iid,
    components := b.components ++ [component] }

/-- Adding a list of fields in order (a builder call sequence). -/
def DictionaryBuilder.add_fields (b : DictionaryBuilder)
    (fs : List FieldData) : DictionaryBuilder :=
  fs.foldl DictionaryBuilder.add_field b

/-- The immutable dictionary (`mod.rs`, `DictionaryData` behind
`Dictionary`): the same collections, frozen by `build`. -/
structure Dictionary where
  version : String
  symbol_table : SymbolTable
  abbreviations : List AbbreviationData
  data_types : List DatatypeData
  fields : List FieldData
  components : List ComponentData
  messages : List MessageData
  categories : List CategoryData
  header : List FieldData

/-- `DictionaryBuilder::build`. -/
def DictionaryBuilder.build (b : DictionaryBuilder) : Dictionary :=
  { version := b.version, symbol_table := b.symbol_table,
    abbreviations := b.abbreviations, data_types := b.data_types,
    fields := b.fields, components := b.components, messages := b.messages,
    categories := b.categories, header := b.header }

/-- `Dictionary::field_by_tag`: resolve the tag key through the symbol
table, then index the field vector (the source `unwrap`s the index; a
dangling id would panic, so the liveness invariant below makes the panic
unreachable and `none` here means only a missing key). -/
def Dictionary.field_by_tag (d : Dictionary) (tag : Nat) : Option FieldData :=
  (d.symbol_table.get (Key.fieldByTag tag)).bind (fun iid => d.fields.get? iid)

/-- `Dictionary::field_by_name`. -/
def Dictionary.field_by_name (d : Dictionary) (name : String) : Option FieldData :=
  (d.symbol_table.get (Key.fieldByName name)).bind (fun iid => d.fields.get? iid)

end Fefix.modrs

namespace Fefix

/-! Lookup lemmas for the two "latest binding wins" association lookups. -/

/-- Folding the lookup step from any accumulator either finds the latest
binding or keeps the accumulator. -/
theorem lookup_last_foldl {α : Type} (l : List (String × α)) (k : String) :
    ∀ acc : Option α,
      l.foldl (fun acc p => if p.1 = k then some p.2 else acc) acc =
        match lookup_last l k with
        | some v => some v
        | none => acc := by
  induction l with
  | nil => intro acc; simp [lookup_last]
  | cons p ps ih =>
      intro acc
      have hx : lookup_last (p :: ps) k =
          match lookup_last ps k with
          | some v => some v
          | none => if p.1 = k then some p.2 else none := by
        simp only [lookup_last, List.foldl_cons]
        exact ih (if p.1 = k then some p.2 else none)
      simp only [List.foldl_cons]
      rw [ih (if p.1 = k then some p.2 else acc), hx]
      cases hl : lookup_last ps k with
      | some v => simp
      | none => by_cases hp : p.1 = k <;> simp [hp]

/-- Unfolding `lookup_last` over a cons cell. -/
theorem lookup_last_cons {α : Type} (p : String × α) (l : List (String × α))
    (k : String) :
    lookup_last (p :: l) k =
      match lookup_last l k with
      | some v => some v
      | none => if p.1 = k then some p.2 else none := by
  simp only [lookup_last, List.foldl_cons]
  exact lookup_last_foldl l k (if p.1 = k then some p.2 else none)

/-- A successful `lookup_last` returns a binding of the list. -/
theorem lookup_last_mem {α : Type} {l : List (String × α)} {k : String}
    {v : α} (h : lookup_last l k = some v) : (k, v) ∈ l := by
  induction l with
  | nil => simp [lookup_last] at h
  | cons p ps ih =>
      rw [lookup_last_cons] at h
      cases hl : lookup_last ps k with
      | some w =>
          rw [hl] at h
          simp only [Option.some.injEq] at h
          subst h
          exact List.mem_cons_of_mem _ (ih hl)
      | none =>
          rw [hl] at h
          by_cases hp : p.1 = k
          · simp [hp] at h
            subst h
            rcases p with ⟨p1, p2⟩
            simp only at hp
            subst hp
            exact List.mem_cons_self _ _
          · simp [hp] at h

/-- Folding the by-name lookup step from any accumulator either finds the
latest entity or keeps the accumulator. -/
theorem last_with_name_foldl {α : Type} (key : α → String) (l : List α)
    (n : String) :
    ∀ acc : Option α,
      l.foldl (fun acc x => if key x = n then some x else acc) acc =
        match last_with_name key l n with
        | some v => some v
        | none => acc := by
  induction l with
  | nil => intro acc; simp [last_with_name]
  | cons x xs ih =>
      intro acc
      have hx : last_with_name key (x :: xs) n =
          match last_with_name key xs n with
          | some v => some v
          | none => if key x = n then some x else none := by
        simp only [last_with_name, List.foldl_cons]
        exact ih (if key x = n then some x else none)
      simp only [List.foldl_cons]
      rw [ih (if key x = n then some x else acc), hx]
      cases hl : last_with_name key xs n with
      | some v => simp
      | none => by_cases hp : key x = n <;> simp [hp]

/-- Unfolding `last_with_name` over a cons cell. -/
theorem last_with_name_cons {α : Type} (key : α → String) (x : α)
    (l : List α) (n : String) :
    last_with_name key (x :: l) n =
      match last_with_name key l n with
      | some v => some v
      | none => if key x = n then some x else none := by
  simp only [last_with_name, List.foldl_cons]
  exact last_with_name_foldl key l n (if key x = n then some x else none)

/-- A successful by-name lookup returns a member carrying the looked-up
name. -/
theorem last_with_name_mem {α : Type} {key : α → String} {l : List α}
    {n : String} {v : α} (h : last_with_name key l n = some v) :
    v ∈ l ∧ key v = n := by
  induction l with
  | nil => simp [last_with_name] at h
  | cons x xs ih =>
      rw [last_with_name_cons] at h
      cases hl : last_with_name key xs n with
      | some w =>
          rw [hl] at h
          simp only [Option.some.injEq] at h
          subst h
          rcases ih hl with ⟨h1, h2⟩
          exact ⟨List.mem_cons_of_mem _ h1, h2⟩
      | none =>
          rw [hl] at h
          by_cases hp : key x = n
          · simp [hp] at h
            subst h
            exact ⟨List.mem_cons_self _ _, hp⟩
          · simp [hp] at h

/-- The adjacency map's keys are the component names. -/
theorem mk_adj_keys (comps : List RawComponent) :
    (mk_adj comps).map Prod.fst = comps.map RawComponent.name := by
  simp [mk_adj, List.map_map]

/-- With distinct component names, the adjacency lookup of a component's
name returns that component and its dependency scan. -/
theorem mk_adj_lookup_of_nodup {comps : List RawComponent}
    (hnd : (comps.map RawComponent.name).Nodup) {c : RawComponent}
    (hc : c ∈ comps) :
    lookup_last (mk_adj comps) c.name = some (c, component_deps c.items) := by
  induction comps with
  | nil => cases hc
  | cons c0 rest ih =>
      have hnd' : (rest.map RawComponent.name).Nodup :=
        (List.nodup_cons.mp hnd).2
      rcases List.mem_cons.mp hc with h1 | h1
      · subst h1
        have hout : lookup_last (mk_adj rest) c.name = none := by
          cases hl : lookup_last (mk_adj rest) c.name with
          | none => rfl
          | some v =>
              have hmem := lookup_last_mem hl
              have : c.name ∈ (mk_adj rest).map Prod.fst :=
                List.mem_map.mpr ⟨(c.name, v), hmem, rfl⟩
              rw [mk_adj_keys] at this
              exact absurd this (List.nodup_cons.mp hnd).1
        show lookup_last ((c.name, c, component_deps c.items) :: mk_adj rest)
            c.name = _
        rw [lookup_last_cons, hout]
        simp
      · have := ih hnd' h1
        show lookup_last ((c0.name, c0, component_deps c0.items) :: mk_adj rest)
            c.name = _
        rw [lookup_last_cons, this]

/-- A successful adjacency lookup returns a registered component whose
name is the key, paired with its dependency scan. -/
theorem mk_adj_lookup_inv {comps : List RawComponent} {n : String}
    {cd : RawComponent × List String}
    (h : lookup_last (mk_adj comps) n = some cd) :
    cd.1 ∈ comps ∧ cd.1.name = n ∧ cd.2 = component_deps cd.1.items := by
  have hmem := lookup_last_mem h
  rcases List.mem_map.mp hmem with ⟨c, hc, heq⟩
  have h1 : c.name = n := congrArg Prod.fst heq
  have h2 : (c, component_deps c.items) = cd := congrArg Prod.snd heq
  refine ⟨?_, ?_, ?_⟩
  · rw [← h2]; exact hc
  · rw [← h2]; exact h1
  · rw [← h2]

/-- `deps_of_name` through a successful adjacency lookup. -/
theorem deps_of_name_eq {comps : List RawComponent} {n : String}
    {cd : RawComponent × List String}
    (h : lookup_last (mk_adj comps) n = some cd) :
    deps_of_name comps n = cd.2 := by
  simp [deps_of_name, h]

/-! Claim theorems on version synthesis and error surfacing. -/

/-- C6: the Dictionary version string is `{type}.{major}.{minor}` when
the servicepack is zero and gains a `-SP{n}` suffix exactly when it is
non-zero; in particular type FIX, major 5, minor 0 yields `FIX.5.0` for
servicepack 0 and `FIX.5.0-SP1` for servicepack 1. -/
theorem c6_version_string :
    (∀ fix : Fix, fix.servicepack = "0" →
      fix.version = fix.type ++ "." ++ fix.major ++ "." ++ fix.minor) ∧
    (∀ fix : Fix, fix.servicepack ≠ "0" →
      fix.version =
        fix.type ++ "." ++ fix.major ++ "." ++ fix.minor
          ++ "-SP" ++ fix.servicepack) ∧
    (version_doc "0").version = "FIX.5.0" ∧
    (version_doc "1").version = "FIX.5.0-SP1" := by
  refine ⟨?_, ?_, ?_, ?_⟩
  · intro fix h
    simp [Fix.version, h]
  · intro fix h
    simp [Fix.version, h, String.append_assoc]
  · rfl
  · rfl

/-- C7 (code bug): `parse_quickfix_xml` never returns an `Err` value to
the caller for any input — in particular, when the external
deserialization of the document fails (as it does for a document missing
the mandatory `messages` section), the function panics on its `unwrap`
instead of returning the error its `Result` signature promises. -/
theorem c7_malformed_input_panics :
    (∀ (input : Except DeError Fix) (e : DeError),
      parse_quickfix_xml input ≠ ImportResult.err e) ∧
    (∀ e : DeError, parse_quickfix_xml (.error e) = ImportResult.panicked) := by
  constructor
  · intro input e
    cases input with
    | error e' => simp [parse_quickfix_xml]
    | ok fix =>
        simp only [parse_quickfix_xml]
        repeat' split
        all_goals simp
  · intro e
    rfl

/-- C2 counterexample: for the two mutually referencing components of
`cyclic_doc`, the import does not fail with any error value — the code
contains no cycle check and no `CyclicDefinition` error at all, so the
claimed "fails with a CyclicDefinition error" is false at this input. -/
theorem c2_no_cyclic_definition_error_counterexample :
    (parse_quickfix_xml (.ok cyclic_doc)).is_err = false := by
  have h : parse_quickfix_xml (.ok cyclic_doc) = ImportResult.panicked := by
    simp [parse_quickfix_xml, cyclic_doc, import_datatypes,
      Fix.fields_that_start_groups, group_names_loop, import_fields,
      Fix.topologically_sort_components, mk_adj, component_deps, deps_loop,
      sort_loop, lookup_last, import_components, convert_items,
      Dictionary.component_by_name, last_with_name, Dictionary.new,
      Dictionary.add_component, Component.new, Component.with_layout,
      Component.name, import_messages]
  rw [h]
  rfl

/-- C2 as amended: on a document whose two components reference each
other, the unchecked sort emits them in an unresolvable order and
the import panics on the failed component lookup, producing no
Dictionary and returning no error value. -/
theorem c2_cycle_panics :
    parse_quickfix_xml (.ok cyclic_doc) = ImportResult.panicked := by
  simp [parse_quickfix_xml, cyclic_doc, import_datatypes,
    Fix.fields_that_start_groups, group_names_loop, import_fields,
    Fix.topologically_sort_components, mk_adj, component_deps, deps_loop,
    sort_loop, lookup_last, import_components, convert_items,
    Dictionary.component_by_name, last_with_name, Dictionary.new,
    Dictionary.add_component, Component.new, Component.with_layout,
    Component.name, import_messages]

/-- C8 counterexample: `c8_doc` lists two dependency-free components in
source order CompA, CompB, yet the sorter registers them as CompB,
CompA — the claimed preservation of source order is false at this
input. -/
theorem c8_source_order_counterexample :
    (Fix.topologically_sort_components c8_doc).map
        (List.map RawComponent.name) = some ["CompB", "CompA"] ∧
    (["CompB", "CompA"] : List String) ≠ ["CompA", "CompB"] := by
  constructor
  · simp [Fix.topologically_sort_components, c8_doc, mk_adj,
      component_deps, deps_loop, sort_loop, lookup_last]
  · decide

/-- C3 (code bug): importing `hb_doc` yields a message found by name
"Heartbeat" with msg-type "0", but the message's raw item list is
dropped by the importer, so its layout is empty and contains no
"TestReqID" field item. -/
theorem c3_message_layout_dropped :
    parse_quickfix_xml (.ok hb_doc) = ImportResult.ok hb_dict ∧
    (hb_dict.message_by_name "Heartbeat").map Message.msg_type = some "0" ∧
    (hb_dict.message_by_name "Heartbeat").map Message.layout_items = some [] := by
  refine ⟨?_, ?_, ?_⟩
  · simp [parse_quickfix_xml, hb_doc, hb_dict, Fix.version, import_datatypes,
      Fix.fields_that_start_groups, group_names_loop, import_fields,
      build_field, Field.new, Fix.topologically_sort_components, mk_adj,
      component_deps, deps_loop, sort_loop, lookup_last, import_components,
      convert_items, Dictionary.datatype_by_name, Dictionary.message_by_name,
      last_with_name, Dictionary.new, Dictionary.add_component,
      Dictionary.add_datatype, Dictionary.add_field, Dictionary.add_message,
      Datatype.new, Component.new, Component.with_layout, Component.name,
      import_messages, Message.new]
  · rfl
  · rfl

/-- C4 (code bug): in `grp_doc`, the field "NoLines" is used as a
group's counter in a message layout (it is in
`fields_that_start_groups`), but because it has no enumerated values
the importer leaves its group-counter flag cleared. -/
theorem c4_group_counter_flag_missed :
    grp_doc.fields_that_start_groups = ["NoLines"] ∧
    parse_quickfix_xml (.ok grp_doc) = ImportResult.ok grp_dict ∧
    (grp_dict.field_by_name "NoLines").map Field.is_group = some false := by
  refine ⟨?_, ?_, ?_⟩
  · simp [Fix.fields_that_start_groups, grp_doc, group_names_loop]
  · simp [parse_quickfix_xml, grp_doc, grp_dict, Fix.version, import_datatypes,
      Fix.fields_that_start_groups, group_names_loop, import_fields,
      build_field, Field.new, Fix.topologically_sort_components, mk_adj,
      component_deps, deps_loop, sort_loop, lookup_last, import_components,
      convert_items, Dictionary.datatype_by_name, Dictionary.message_by_name,
      last_with_name, Dictionary.new, Dictionary.add_component,
      Dictionary.add_datatype, Dictionary.add_field, Dictionary.add_message,
      Datatype.new, Component.new, Component.with_layout, Component.name,
      import_messages, Message.new]
  · rfl

theorem last_with_name_isSome_of_mem {α : Type} {key : α → String}
    {l : List α} {n : String} {v : α} (hv : v ∈ l) (hk : key v = n) :
    (last_with_name key l n).isSome = true := by
  induction l with
  | nil => cases hv
  | cons x xs ih =>
      rw [last_with_name_cons]
      cases hl : last_with_name key xs n with
      | some w => simp
      | none =>
          rcases List.mem_cons.mp hv with h1 | h1
          · subst h1
            simp [hk]
          · have := ih h1
            rw [hl] at this
            simp at this


/-! Preservation lemmas along the import pipeline. -/

/-- By-name lookup over one appended entity. -/
theorem last_with_name_append_single {α : Type} (key : α → String)
    (l : List α) (x : α) (n : String) :
    last_with_name key (l ++ [x]) n =
      if key x = n then some x else last_with_name key l n := by
  simp only [last_with_name, List.foldl_append, List.foldl_cons,
    List.foldl_nil]

/-- Importing datatypes never touches the field collection. -/
theorem import_datatypes_fields (fs : List RawField) :
    ∀ d : Dictionary, (import_datatypes fs d).fields = d.fields := by
  induction fs with
  | nil => intro d; rfl
  | cons f fs ih =>
      intro d
      simp only [import_datatypes]
      rw [ih]
      by_cases h : (d.datatype_by_name f.datatype).isNone <;>
        simp [h, Dictionary.add_datatype]

/-- A datatype lookup that succeeds keeps succeeding as more datatypes
are registered. -/
theorem import_datatypes_isSome_mono (fs : List RawField) :
    ∀ (d : Dictionary) (n : String),
      ((d.datatype_by_name n).isSome = true) →
      (((import_datatypes fs d).datatype_by_name n).isSome = true) := by
  induction fs with
  | nil => intro d n h; exact h
  | cons f fs ih =>
      intro d n h
      simp only [import_datatypes]
      apply ih
      by_cases hd : (d.datatype_by_name f.datatype).isNone
      · simp only [hd, if_pos]
        show (last_with_name Datatype.name
            (d.datatypes ++ [Datatype.new f.datatype]) n).isSome = true
        rw [last_with_name_append_single]
        by_cases hk : (Datatype.new f.datatype).name = n
        · simp [hk]
        · rw [if_neg hk]
          exact h
      · simp only [hd, Bool.false_eq_true, if_false]
        exact h

/-- After the datatype-import pass, every raw field's datatype name
resolves. -/
theorem import_datatypes_covers (fs : List RawField) :
    ∀ (d : Dictionary) (f : RawField), f ∈ fs →
      (((import_datatypes fs d).datatype_by_name f.datatype).isSome = true) := by
  induction fs with
  | nil => intro d f h; cases h
  | cons g gs ih =>
      intro d f hf
      rcases List.mem_cons.mp hf with h1 | h1
      · subst h1
        simp only [import_datatypes]
        apply import_datatypes_isSome_mono
        by_cases hd : (d.datatype_by_name f.datatype).isNone
        · simp only [hd, if_pos]
          show (last_with_name Datatype.name
              (d.datatypes ++ [Datatype.new f.datatype]) f.datatype).isSome = true
          rw [last_with_name_append_single]
          simp [Datatype.new]
        · simp only [hd, Bool.false_eq_true, if_false]
          cases ho : d.datatype_by_name f.datatype with
          | none => rw [ho] at hd; simp at hd
          | some v => rfl
      · simp only [import_datatypes]
        exact ih _ f h1

/-- The name of one imported field record. -/
theorem build_field_name (gn : List String) (dt : Datatype) (f : RawField) :
    (build_field gn dt f).name = f.name := by
  cases hv : f.values <;> simp [build_field, Field.new, hv]

/-- The imported field's enums are exactly the raw (value, description)
records in source order, and `none` exactly when the record listed
none. -/
theorem build_field_enums (gn : List String) (dt : Datatype) (f : RawField) :
    (build_field gn dt f).enums =
      f.values.map (List.map (fun v => FieldEnum.mk v.name v.description)) := by
  cases hv : f.values <;> simp [build_field, Field.new, Field.enums, hv]

/-- The imported field's datatype is the one looked up for it. -/
theorem build_field_datatype (gn : List String) (dt : Datatype) (f : RawField) :
    (build_field gn dt f).datatype = dt := by
  cases hv : f.values <;> simp [build_field, Field.new, hv]

/-- What the field-import loop does to the dictionary: datatypes are
untouched, the field collection is extended in source order with the
records' names and enums, and every field present afterwards either was
present before or references a datatype registered before. -/
theorem import_fields_spec (gn : List String) (fs : List RawField) :
    ∀ d d' : Dictionary, import_fields gn fs d = some d' →
      d'.datatypes = d.datatypes ∧
      d'.fields.map Field.name = d.fields.map Field.name
        ++ fs.map RawField.name ∧
      d'.fields.map Field.enums = d.fields.map Field.enums
        ++ fs.map (fun f => f.values.map
          (List.map (fun v => FieldEnum.mk v.name v.description))) ∧
      (∀ fl ∈ d'.fields, fl ∈ d.fields ∨ fl.datatype ∈ d.datatypes) := by
  induction fs with
  | nil =>
      intro d d' h
      simp only [import_fields, Option.some.injEq] at h
      subst h
      exact ⟨rfl, by simp, by simp, fun fl hfl => Or.inl hfl⟩
  | cons f fs ih =>
      intro d d' h
      simp only [import_fields] at h
      cases hl : d.datatype_by_name f.datatype with
      | none => rw [hl] at h; cases h
      | some dt =>
          rw [hl] at h
          simp only at h
          rcases ih _ _ h with ⟨h1, h2, h3, h4⟩
          have hdt : dt ∈ d.datatypes := (last_with_name_mem hl).1
          have hfa : (d.add_field (build_field gn dt f)).fields
              = d.fields ++ [build_field gn dt f] := rfl
          have hda : (d.add_field (build_field gn dt f)).datatypes
              = d.datatypes := rfl
          refine ⟨by rw [h1, hda], ?_, ?_, ?_⟩
          · rw [h2, hfa]
            simp [build_field_name]
          · rw [h3, hfa]
            simp [build_field_enums]
          · intro fl hfl
            rcases h4 fl hfl with h5 | h5
            · rw [hfa] at h5
              rcases List.mem_append.mp h5 with h6 | h6
              · exact Or.inl h6
              · rcases List.mem_singleton.mp h6 with rfl
                right
                rw [build_field_datatype]
                exact hdt
            · rw [hda] at h5
              exact Or.inr h5

/-- The component-import loop never touches fields, datatypes or
messages. -/
theorem import_components_pres (cs : List RawComponent) :
    ∀ d d' : Dictionary, import_components cs d = some d' →
      d'.fields = d.fields ∧ d'.datatypes = d.datatypes ∧
      d'.messages = d.messages := by
  induction cs with
  | nil =>
      intro d d' h
      simp only [import_components, Option.some.injEq] at h
      subst h
      exact ⟨rfl, rfl, rfl⟩
  | cons c cs ih =>
      intro d d' h
      simp only [import_components] at h
      cases hl : convert_items d c.items with
      | none => rw [hl] at h; cases h
      | some layout =>
          rw [hl] at h
          rcases ih _ _ h with ⟨h1, h2, h3⟩
          exact ⟨h1, h2, h3⟩

/-- The message-import loop never touches fields or datatypes. -/
theorem import_messages_pres (ms : List RawMessage) :
    ∀ d : Dictionary, (import_messages ms d).fields = d.fields ∧
      (import_messages ms d).datatypes = d.datatypes := by
  induction ms with
  | nil => intro d; exact ⟨rfl, rfl⟩
  | cons m ms ih =>
      intro d
      simp only [import_messages]
      rcases ih (d.add_message (Message.new m.msgtype m.name)) with ⟨h1, h2⟩
      exact ⟨h1, h2⟩

/-- A successful import pins the final field and datatype collections to
those produced by the field-import stage. -/
theorem parse_ok_spec (fix : Fix) (dict : Dictionary)
    (h : parse_quickfix_xml (.ok fix) = ImportResult.ok dict) :
    ∃ d2, import_fields fix.fields_that_start_groups fix.fields
        (import_datatypes fix.fields (Dictionary.new fix.version)) = some d2 ∧
      dict.fields = d2.fields ∧ dict.datatypes = d2.datatypes := by
  simp only [parse_quickfix_xml] at h
  cases h1 : import_fields fix.fields_that_start_groups fix.fields
      (import_datatypes fix.fields (Dictionary.new fix.version)) with
  | none => simp only [h1] at h; cases h
  | some d2 =>
      simp only [h1] at h
      cases h2 : fix.topologically_sort_components with
      | none => simp only [h2] at h; cases h
      | some sorted =>
          simp only [h2] at h
          cases h3 : import_components sorted d2 with
          | none => simp only [h3] at h; cases h
          | some d3 =>
              simp only [h3] at h
              cases h4 : convert_items (import_messages fix.messages d3)
                  fix.header with
              | none => simp only [h4] at h; cases h
              | some header_items =>
                  simp only [h4] at h
                  cases h5 : convert_items
                      ((import_messages fix.messages d3).add_component
                        ((Component.new 0 "StandardHeader" 0).with_layout
                          header_items)) fix.trailer with
                  | none => simp only [h5] at h; cases h
                  | some trailer_items =>
                      simp only [h5, ImportResult.ok.injEq] at h
                      subst h
                      rcases import_components_pres _ _ _ h3 with ⟨p1, p2, _⟩
                      rcases import_messages_pres fix.messages d3 with ⟨q1, q2⟩
                      refine ⟨d2, rfl, ?_, ?_⟩
                      · simp only [Dictionary.add_component]
                        rw [q1, p1]
                      · simp only [Dictionary.add_component]
                        rw [q2, p2]

/-- C5: for every successful import, the imported fields carry, in
source order, exactly the raw records' names, and each field's `enums()`
is exactly the raw record's (value, description) pairs in source order —
`none` (not an empty list) exactly when the record listed no values. -/
theorem c5_enums_exact (fix : Fix) (dict : Dictionary)
    (h : parse_quickfix_xml (.ok fix) = ImportResult.ok dict) :
    dict.fields.map Field.name = fix.fields.map RawField.name ∧
    dict.fields.map Field.enums =
      fix.fields.map (fun f => f.values.map
        (List.map (fun v => FieldEnum.mk v.name v.description))) := by
  rcases parse_ok_spec fix dict h with ⟨d2, h1, hf, _⟩
  rcases import_fields_spec _ _ _ _ h1 with ⟨_, hn, he, _⟩
  have h0 : (import_datatypes fix.fields (Dictionary.new fix.version)).fields
      = [] := by
    rw [import_datatypes_fields]
    rfl
  constructor
  · rw [hf, hn, h0]
    rfl
  · rw [hf, he, h0]
    rfl

/-- C5 witness: importing `enum_doc` yields fields IOITransType with
exactly its three (value, description) pairs in order and NewSeqNo with
no enums. -/
theorem c5_enums_exact_witness :
    parse_quickfix_xml (.ok enum_doc) = ImportResult.ok enum_dict ∧
    (enum_dict.fields.map Field.name = enum_doc.fields.map RawField.name ∧
     enum_dict.fields.map Field.enums =
       enum_doc.fields.map (fun f => f.values.map
         (List.map (fun v => FieldEnum.mk v.name v.description)))) := by
  have hp : parse_quickfix_xml (.ok enum_doc) = ImportResult.ok enum_dict := by
    simp [parse_quickfix_xml, enum_doc, enum_dict, Fix.version,
      import_datatypes, Fix.fields_that_start_groups, group_names_loop,
      import_fields, build_field, Field.new, Fix.topologically_sort_components,
      mk_adj, component_deps, deps_loop, sort_loop, lookup_last,
      import_components, convert_items, Dictionary.datatype_by_name,
      last_with_name, Dictionary.new, Dictionary.add_component,
      Dictionary.add_datatype, Dictionary.add_field, Datatype.new,
      Component.new, Component.with_layout, Component.name, import_messages]
  exact ⟨hp, c5_enums_exact enum_doc enum_dict hp⟩

/-- C9: in every dictionary a successful import produces, every field's
datatype reference resolves through `datatype_by_name`. -/
theorem c9_datatypes_resolve (fix : Fix) (dict : Dictionary)
    (h : parse_quickfix_xml (.ok fix) = ImportResult.ok dict) :
    ∀ f ∈ dict.fields,
      (dict.datatype_by_name f.datatype.name).isSome = true := by
  rcases parse_ok_spec fix dict h with ⟨d2, h1, hf, hdt⟩
  rcases import_fields_spec _ _ _ _ h1 with ⟨hdts, _, _, hmem⟩
  intro f hfmem
  rw [hf] at hfmem
  rcases hmem f hfmem with h2 | h2
  · rw [import_datatypes_fields] at h2
    cases h2
  · have hin : f.datatype ∈ dict.datatypes := by
      rw [hdt, hdts]
      exact h2
    exact last_with_name_isSome_of_mem hin rfl

/-- C9 witness: in the dictionary imported from `enum_doc`, the datatype
reference of the concrete field IOITransType resolves. -/
theorem c9_datatypes_resolve_witness :
    (enum_dict.datatype_by_name "INT").isSome = true := by
  have hp : parse_quickfix_xml (.ok enum_doc) = ImportResult.ok enum_dict := by
    simp [parse_quickfix_xml, enum_doc, enum_dict, Fix.version,
      import_datatypes, Fix.fields_that_start_groups, group_names_loop,
      import_fields, build_field, Field.new, Fix.topologically_sort_components,
      mk_adj, component_deps, deps_loop, sort_loop, lookup_last,
      import_components, convert_items, Dictionary.datatype_by_name,
      last_with_name, Dictionary.new, Dictionary.add_component,
      Dictionary.add_datatype, Dictionary.add_field, Datatype.new,
      Component.new, Component.with_layout, Component.name, import_messages]
  have hmem : Field.mk "IOITransType" 28 (Datatype.mk "INT" "" [])
      (some [FieldEnum.mk "N" "NEW", FieldEnum.mk "C" "CANCEL",
        FieldEnum.mk "R" "REPLACE"]) false ∈ enum_dict.fields := by
    simp [enum_dict]
  exact c9_datatypes_resolve enum_doc enum_dict hp _ hmem

/-! The registration order of dependency-free components. -/

/-- On a queue of dependency-free component names not yet seen, the sort
loop emits the components in queue order (each name is first-visited and
immediately re-popped and emitted). -/
theorem sort_loop_no_deps_aux (comps : List RawComponent) :
    ∀ (cs : List RawComponent) (sorted : List RawComponent)
      (visited : List String),
      (∀ c ∈ cs, lookup_last (mk_adj comps) c.name = some (c, [])) →
      ((cs.map RawComponent.name).Nodup) →
      (∀ c ∈ cs, c.name ∉ visited) →
      sort_loop (mk_adj comps) sorted visited [] (cs.map RawComponent.name)
        = some (sorted ++ cs) := by
  intro cs
  induction cs with
  | nil =>
      intro sorted visited _ _ _
      simp [sort_loop]
  | cons c cs ih =>
      intro sorted visited hlk hnd hvis
      have hc : lookup_last (mk_adj comps) c.name = some (c, []) :=
        hlk c (List.mem_cons_self _ _)
      have hnotd : c.name ∉ visited := hvis c (List.mem_cons_self _ _)
      rw [List.map_cons]
      rw [sort_loop]
      rw [dif_neg (List.not_mem_nil c.name), dif_neg hnotd, hc]
      simp only [List.reverse_nil, List.nil_append]
      rw [sort_loop]
      rw [dif_pos (List.mem_singleton.mpr rfl), hc]
      simp only [List.erase_cons_head]
      rw [ih (sorted ++ [c]) (c.name :: visited)
        (fun c' hc' => hlk c' (List.mem_cons_of_mem _ hc'))
        (List.nodup_cons.mp hnd).2
        ?_]
      · simp
      · intro c' hc'
        simp only [List.mem_cons, not_or]
        constructor
        · intro heq
          exact (List.nodup_cons.mp hnd).1
            (heq ▸ List.mem_map.mpr ⟨c', hc', rfl⟩)
        · exact hvis c' (List.mem_cons_of_mem _ hc')

/-- C8 as amended: a document whose components have no dependencies at
all is registered in exactly the reverse of source order (the sorter
consumes the source-order queue from the back). -/
theorem c8_reverse_source_order (fix : Fix)
    (hnd : (fix.components.map RawComponent.name).Nodup)
    (hdeps : ∀ c ∈ fix.components, component_deps c.items = []) :
    fix.topologically_sort_components = some fix.components.reverse := by
  unfold Fix.topologically_sort_components
  rw [← List.map_reverse]
  rw [sort_loop_no_deps_aux fix.components fix.components.reverse [] []
    ?_ ?_ ?_]
  · simp
  · intro c hc
    have hc' : c ∈ fix.components := List.mem_reverse.mp hc
    rw [mk_adj_lookup_of_nodup hnd hc', hdeps c hc']
  · rw [List.map_reverse]
    exact (List.nodup_reverse).mpr hnd
  · intro c _
    exact List.not_mem_nil _

/-- C8 witness: the two dependency-free components of `c8_doc` are
registered in reverse source order. -/
theorem c8_reverse_source_order_witness :
    Fix.topologically_sort_components c8_doc
      = some (c8_doc.components.reverse) := by
  apply c8_reverse_source_order c8_doc
  · decide
  · intro c hc
    simp [c8_doc] at hc
    rcases hc with rfl | rfl <;> simp [component_deps, deps_loop]

end Fefix

namespace Fefix.modrs

/-- Getting the key just inserted returns the new binding. -/
theorem symbol_get_insert_self (st : SymbolTable) (k : Key) (v : Nat) :
    (st.insert k v).get k = some v := by
  simp [SymbolTable.insert, SymbolTable.get]

/-- Getting another key skips the new binding. -/
theorem symbol_get_insert_ne (st : SymbolTable) (k k' : Key) (v : Nat)
    (h : k' ≠ k) : (st.insert k v).get k' = st.get k' := by
  have hd : (k = k') = False := eq_false (fun h' => h h'.symm)
  simp [SymbolTable.insert, SymbolTable.get, List.find?_cons, hd]

/-- `add_field` keeps every symbol-table entry pointing at a live field:
entries it adds point at the freshly pushed field, older entries stay in
range as the vector only grows. -/
theorem add_field_live (b : DictionaryBuilder) (f : FieldData)
    (hb : ∀ k iid, b.symbol_table.get k = some iid → iid < b.fields.length) :
    ∀ k iid, (b.add_field f).symbol_table.get k = some iid →
      iid < (b.add_field f).fields.length := by
  intro k iid h
  have hst : (b.add_field f).symbol_table =
      (b.symbol_table.insert (Key.fieldByName f.name) b.fields.length).insert
        (Key.fieldByTag f.tag) b.fields.length := rfl
  have hlen : (b.add_field f).fields.length = b.fields.length + 1 := by
    simp [DictionaryBuilder.add_field]
  rw [hlen]
  rw [hst] at h
  by_cases h1 : k = Key.fieldByTag f.tag
  · subst h1
    rw [symbol_get_insert_self] at h
    simp only [Option.some.injEq] at h
    omega
  · rw [symbol_get_insert_ne _ _ _ _ h1] at h
    by_cases h2 : k = Key.fieldByName f.name
    · subst h2
      rw [symbol_get_insert_self] at h
      simp only [Option.some.injEq] at h
      omega
    · rw [symbol_get_insert_ne _ _ _ _ h2] at h
      exact Nat.lt_succ_of_lt (hb k iid h)

/-- Folding `add_field` over any field list preserves index liveness. -/
theorem add_fields_live (fs : List FieldData) :
    ∀ b : DictionaryBuilder,
      (∀ k iid, b.symbol_table.get k = some iid → iid < b.fields.length) →
      ∀ k iid, (b.add_fields fs).symbol_table.get k = some iid →
        iid < (b.add_fields fs).fields.length := by
  induction fs with
  | nil => intro b hb; exact hb
  | cons f fs ih =>
      intro b hb
      show ∀ k iid, ((b.add_field f).add_fields fs).symbol_table.get k
          = some iid → iid < ((b.add_field f).add_fields fs).fields.length
      exact ih (b.add_field f) (add_field_live b f hb)

/-- C10: duplicate keys are silently overwritten, never rejected — after
any builder sequence followed by two `add_field`s sharing a tag (or a
name), both adds go through, `build` yields a dictionary, the
tag (resp. name) lookup returns the later field, and every surviving
symbol-table entry still indexes a live field. -/
theorem c10_duplicate_keys_overwrite (v : String) (fs : List FieldData)
    (f g : FieldData) :
    (f.tag = g.tag →
      ((((DictionaryBuilder.new v).add_fields fs).add_field f).add_field
        g).build.field_by_tag g.tag = some g) ∧
    (f.name = g.name →
      ((((DictionaryBuilder.new v).add_fields fs).add_field f).add_field
        g).build.field_by_name g.name = some g) ∧
    (∀ k iid,
      ((((DictionaryBuilder.new v).add_fields fs).add_field f).add_field
        g).symbol_table.get k = some iid →
      iid < ((((DictionaryBuilder.new v).add_fields fs).add_field f).add_field
        g).fields.length) := by
  set b := ((DictionaryBuilder.new v).add_fields fs) with hb
  have hst : ((b.add_field f).add_field g).symbol_table =
      (((b.add_field f).symbol_table.insert (Key.fieldByName g.name)
        (b.add_field f).fields.length).insert (Key.fieldByTag g.tag)
        (b.add_field f).fields.length) := rfl
  have hfl : ((b.add_field f).add_field g).fields
      = (b.fields ++ [f]) ++ [g] := rfl
  have hlen : (b.add_field f).fields.length = (b.fields ++ [f]).length := by
    simp [DictionaryBuilder.add_field]
  refine ⟨?_, ?_, ?_⟩
  · intro _
    show (((b.add_field f).add_field g).symbol_table.get
        (Key.fieldByTag g.tag)).bind
        (fun iid => ((b.add_field f).add_field g).fields.get? iid) = some g
    rw [hst, symbol_get_insert_self, hfl, hlen]
    simp [List.get?_concat_length]
    rw [List.getElem_append_right (by omega)]
    simp
  · intro _
    show (((b.add_field f).add_field g).symbol_table.get
        (Key.fieldByName g.name)).bind
        (fun iid => ((b.add_field f).add_field g).fields.get? iid) = some g
    rw [hst, symbol_get_insert_ne _ _ _ _ (by simp), symbol_get_insert_self,
      hfl, hlen]
    simp [List.get?_concat_length]
    rw [List.getElem_append_right (by omega)]
    simp
  · have hnew : ∀ k iid,
        (DictionaryBuilder.new v).symbol_table.get k = some iid →
        iid < (DictionaryBuilder.new v).fields.length := by
      intro k iid h
      simp [DictionaryBuilder.new, SymbolTable.get, List.find?] at h
    exact add_field_live _ g (add_field_live _ f (add_fields_live fs _ hnew))

/-- C10 witness: two concrete fields with the same tag added to the
empty builder — the tag lookup returns the later one. -/
theorem c10_duplicate_keys_overwrite_witness :
    ((((DictionaryBuilder.new "d").add_fields []).add_field
      (FieldData.mk "A" 1 0 none none none none none false none)).add_field
      (FieldData.mk "B" 1 0 none none none none none false none)).build.field_by_tag 1
      = some (FieldData.mk "B" 1 0 none none none none none false none) :=
  (c10_duplicate_keys_overwrite "d" []
    (FieldData.mk "A" 1 0 none none none none none false none)
    (FieldData.mk "B" 1 0 none none none none none false none)).1 rfl

end Fefix.modrs

namespace Fefix

/-! Queue-structure lemmas for the sort loop's invariant. -/

/-- Inversion of `QInv`: either nothing is visiting and the queue holds
known names, or the top visiting component's segment leads the queue. -/
theorem qinv_inversion {comps : List RawComponent}
    {visited uppers vs q : List String}
    (h : QInv comps visited uppers vs q) :
    (vs = [] ∧ ∀ x ∈ q, x ∈ comps.map RawComponent.name) ∨
    ∃ u vs' A q', vs = u :: vs' ∧ q = A ++ u :: q' ∧
      (∀ a ∈ A, a ∈ comps.map RawComponent.name) ∧
      (∀ a ∈ A, Relation.TransGen (DepEdge comps) u a) ∧
      (∀ d ∈ deps_of_name comps u, d ∈ visited ∨ d ∈ A ∨ d ∈ uppers) ∧
      (∀ x ∈ vs', Relation.TransGen (DepEdge comps) x u) ∧
      QInv comps visited (u :: uppers) vs' q' := by
  cases h with
  | base uppers R hR => exact Or.inl ⟨rfl, hR⟩
  | step uppers u vs A q hA hreach hdeps hchain hrest =>
      exact Or.inr ⟨u, vs, A, q, rfl, rfl, hA, hreach, hdeps, hchain, hrest⟩

/-- Widening the sentinels above a level preserves the queue
structure. -/
theorem qinv_uppers_append {comps : List RawComponent}
    {visited uppers vs q : List String} (extra : List String)
    (h : QInv comps visited uppers vs q) :
    QInv comps visited (uppers ++ extra) vs q := by
  induction h with
  | base uppers R hR => exact .base _ R hR
  | step uppers u vs A q hA hreach hdeps hchain hrest ih =>
      refine .step _ u vs A q hA hreach ?_ hchain ?_
      · intro d hd
        rcases hdeps d hd with h1 | h1 | h1
        · exact Or.inl h1
        · exact Or.inr (Or.inl h1)
        · exact Or.inr (Or.inr (List.mem_append_left _ h1))
      · exact ih

/-- When the outermost sentinel is emitted, it moves from the sentinel
stack into the visited set. -/
theorem qinv_shift {comps : List RawComponent} {visited : List String}
    {w : String} :
    ∀ {uppers' vs q : List String}, QInv comps visited uppers' vs q →
      ∀ uppers, uppers' = uppers ++ [w] →
      QInv comps (w :: visited) uppers vs q := by
  intro uppers' vs q h
  induction h with
  | base u R hR => intro uppers _; exact .base _ R hR
  | step u0 u vs A q hA hreach hdeps hchain hrest ih =>
      intro uppers heq
      subst heq
      refine .step uppers u vs A q hA hreach ?_ hchain ?_
      · intro d hd
        rcases hdeps d hd with h1 | h1 | h1
        · exact Or.inl (List.mem_cons_of_mem _ h1)
        · exact Or.inr (Or.inl h1)
        · rcases List.mem_append.mp h1 with h2 | h2
          · exact Or.inr (Or.inr h2)
          · rcases List.mem_singleton.mp h2 with rfl
            exact Or.inl (List.mem_cons_self _ _)
      · exact ih (u :: uppers) rfl

/-- Every queue element is a known component name or a visiting
sentinel. -/
theorem qinv_queue_mem {comps : List RawComponent}
    {visited uppers vs q : List String}
    (h : QInv comps visited uppers vs q) :
    ∀ x ∈ q, x ∈ comps.map RawComponent.name ∨ x ∈ vs := by
  induction h with
  | base u R hR => exact fun x hx => Or.inl (hR x hx)
  | step u0 u vs A q hA hreach hdeps hchain hrest ih =>
      intro x hx
      rcases List.mem_append.mp hx with h1 | h1
      · exact Or.inl (hA x h1)
      · rcases List.mem_cons.mp h1 with rfl | h2
        · exact Or.inr (List.mem_cons_self _ _)
        · rcases ih x h2 with h3 | h3
          · exact Or.inl h3
          · exact Or.inr (List.mem_cons_of_mem _ h3)

/-- An empty queue forces an empty visiting chain (each visiting
component keeps its sentinel in the queue). -/
theorem qinv_nil_visiting {comps : List RawComponent}
    {visited vs : List String} (h : QInv comps visited [] vs []) :
    vs = [] := by
  rcases qinv_inversion h with ⟨h1, _⟩ | ⟨u, vs', A, q', _, h2, _⟩
  · exact h1
  · exact absurd h2.symm (by simp)

/-! Cost lemmas: the sort loop's remaining work. -/

/-- Exclusion-equivalent visited/visiting pairs select the same
unvisited entries. -/
theorem unvisited_keys_congr (adj : List (String × RawComponent × List String))
    {v1 g1 v2 g2 : List String}
    (h : ∀ m, (m ∈ v1 ∨ m ∈ g1) ↔ (m ∈ v2 ∨ m ∈ g2)) :
    unvisited_keys adj v1 g1 = unvisited_keys adj v2 g2 := by
  unfold unvisited_keys
  apply List.filter_congr
  intro p _
  have h2 : ((p.1 ∉ v1) ∧ (p.1 ∉ g1)) ↔ ((p.1 ∉ v2) ∧ (p.1 ∉ g2)) := by
    rw [← not_or, ← not_or]
    exact not_congr (h p.1)
  rw [show (decide (p.1 ∉ v1) && decide (p.1 ∉ g1))
      = decide ((p.1 ∉ v1) ∧ (p.1 ∉ g1)) from (Bool.decide_and _ _).symm]
  rw [show (decide (p.1 ∉ v2) && decide (p.1 ∉ g2))
      = decide ((p.1 ∉ v2) ∧ (p.1 ∉ g2)) from (Bool.decide_and _ _).symm]
  exact decide_eq_decide.mpr h2

/-- Exclusion-equivalent visited/visiting pairs cost the same remaining
work. -/
theorem unvisited_cost_congr (adj : List (String × RawComponent × List String))
    {v1 g1 v2 g2 : List String}
    (h : ∀ m, (m ∈ v1 ∨ m ∈ g1) ↔ (m ∈ v2 ∨ m ∈ g2)) :
    unvisited_cost adj v1 g1 = unvisited_cost adj v2 g2 := by
  unfold unvisited_cost
  rw [unvisited_keys_congr adj h]

/-- Filtering entries never increases their summed cost. -/
theorem cost_sum_filter_le (p : (String × RawComponent × List String) → Bool)
    (l : List (String × RawComponent × List String)) :
    ((l.filter p).map (fun e => 1 + e.2.2.length)).sum ≤
      (l.map (fun e => 1 + e.2.2.length)).sum := by
  induction l with
  | nil => simp
  | cons x xs ih =>
      rw [List.filter_cons]
      by_cases hx : p x
      · simp only [hx, if_true, List.map_cons, List.sum_cons]
        omega
      · simp only [hx, Bool.false_eq_true, if_false, List.map_cons,
          List.sum_cons]
        omega

/-- First-visiting a component pays for its pop and its dependency
pushes out of the remaining-work budget. -/
theorem unvisited_cost_first_visit
    (adj : List (String × RawComponent × List String))
    {visited visiting : List String} {n : String}
    {cd : RawComponent × List String}
    (hd : n ∉ visited) (hv : n ∉ visiting)
    (hl : lookup_last adj n = some cd) :
    unvisited_cost adj visited (n :: visiting) + (1 + cd.2.length)
      ≤ unvisited_cost adj visited visiting := by
  have hmem : (n, cd) ∈ adj := lookup_last_mem hl
  have hun : (n, cd) ∈ unvisited_keys adj visited visiting := by
    unfold unvisited_keys
    exact List.mem_filter.mpr ⟨hmem, by simp [hd, hv]⟩
  have hsub : unvisited_keys adj visited (n :: visiting)
      = (unvisited_keys adj visited visiting).filter
          (fun p => !decide (p.1 = n)) := by
    unfold unvisited_keys
    rw [List.filter_filter]
    apply List.filter_congr
    intro p _
    by_cases hpn : p.1 = n
    · simp [hpn]
    · simp [List.mem_cons, hpn, Bool.and_comm, Bool.and_left_comm]
  unfold unvisited_cost
  rw [hsub]
  have hkey : ∀ (l : List (String × RawComponent × List String)),
      (n, cd) ∈ l →
      ((l.filter (fun p => !decide (p.1 = n))).map
          (fun e => 1 + e.2.2.length)).sum + (1 + cd.2.length)
        ≤ (l.map (fun e => 1 + e.2.2.length)).sum := by
    intro l hl2
    induction l with
    | nil => cases hl2
    | cons x xs ih =>
        rw [List.filter_cons]
        by_cases hx : x.1 = n
        · have hb : (!decide (x.1 = n)) = false := by simp [hx]
          rw [hb]
          simp only [Bool.false_eq_true, if_false, List.map_cons,
            List.sum_cons]
          rcases List.mem_cons.mp hl2 with h1 | h1
          · have hxl : x.2.2.length = cd.2.length := by rw [← h1]
            have hle := cost_sum_filter_le (fun p => !decide (p.1 = n)) xs
            omega
          · have := ih h1
            omega
        · have hb : (!decide (x.1 = n)) = true := by simp [hx]
          rw [hb]
          simp only [if_true, List.map_cons, List.sum_cons]
          have h1 : (n, cd) ∈ xs := by
            rcases List.mem_cons.mp hl2 with h2 | h2
            · exact absurd (by rw [← h2] : x.1 = n) hx
            · exact h2
          have := ih h1
          omega
  exact hkey _ hun

/-- A name in the component-name list names a registered component. -/
theorem name_mem_comp {comps : List RawComponent} {n : String}
    (h : n ∈ comps.map RawComponent.name) : ∃ c ∈ comps, c.name = n := by
  rcases List.mem_map.mp h with ⟨c, hc, heq⟩
  exact ⟨c, hc, heq⟩

/-- A dependency-ordered list, split anywhere: the dependencies of the
component at the split point all appear in the prefix. -/
theorem sortedok_split {l : List RawComponent} (h : SortedOk l) :
    ∀ (l1 : List RawComponent) (c : RawComponent) (l2 : List RawComponent),
      l = l1 ++ c :: l2 →
      ∀ d ∈ component_deps c.items, d ∈ l1.map RawComponent.name := by
  induction h with
  | nil =>
      intro l1 c l2 heq
      exact absurd heq.symm (by simp)
  | snoc l c' hs hdeps ih =>
      intro l1 c l2 heq d hdc
      rcases List.append_eq_append_iff.mp heq with ⟨a', ha1, ha2⟩ |
        ⟨c'', hc1, hc2⟩
      · cases a' with
        | nil =>
            simp only [List.nil_append] at ha2
            injection ha2 with hcc hl2
            subst hcc
            rw [List.append_nil] at ha1
            subst ha1
            exact hdeps d hdc
        | cons y ys =>
            simp only [List.cons_append] at ha2
            injection ha2 with hcy htail
            have : ys ++ c :: l2 = [] := htail.symm
            exact absurd this (by simp)
      · cases c'' with
        | nil =>
            simp only [List.nil_append] at hc2
            injection hc2 with hcc hl2
            subst hcc
            rw [List.append_nil] at hc1
            subst hc1
            exact hdeps d hdc
        | cons y ys =>
            simp only [List.cons_append] at hc2
            injection hc2 with hcy htail
            subst hcy
            exact ih l1 c ys hc1 d hdc

/-- Two duplicate-free lists with the same members are permutations of
each other. -/
theorem nodup_perm_of_mem_iff {l1 l2 : List String} (h1 : l1.Nodup)
    (h2 : l2.Nodup) (h : ∀ x, x ∈ l1 ↔ x ∈ l2) : l1.Perm l2 := by
  rw [List.perm_iff_count]
  intro a
  by_cases ha : a ∈ l1
  · rw [List.count_eq_one_of_mem h1 ha,
      List.count_eq_one_of_mem h2 ((h a).mp ha)]
  · rw [List.count_eq_zero_of_not_mem ha,
      List.count_eq_zero_of_not_mem (fun hb => ha ((h a).mpr hb))]

end Fefix

namespace Fefix

/-- Postcondition at an empty queue. -/
theorem sort_loop_terminal (comps : List RawComponent)
    (sorted : List RawComponent) (visited visiting : List String)
    (hinv : LoopInv comps sorted visited visiting []) :
    SortedOk sorted ∧ (sorted.map RawComponent.name).Nodup ∧
    (∀ c ∈ sorted, c ∈ comps) ∧
    (∀ n ∈ comps.map RawComponent.name, n ∈ sorted.map RawComponent.name) := by
  have hvs : visiting = [] := qinv_nil_visiting hinv.qinv
  refine ⟨hinv.sorted_ok, hinv.sorted_nd, hinv.sorted_mem, ?_⟩
  intro n hn
  rcases hinv.cover n hn with h1 | h1 | h1
  · exact (hinv.vis_eq n).mp h1
  · rw [hvs] at h1
    cases h1
  · cases h1

theorem sort_loop_sound (comps : List RawComponent)
    (hnd : (comps.map RawComponent.name).Nodup)
    (hcl : ∀ c ∈ comps, ∀ d ∈ component_deps c.items,
        d ∈ comps.map RawComponent.name)
    (hac : ∀ n, ¬ Relation.TransGen (DepEdge comps) n n) :
    ∀ (N : Nat) (sorted : List RawComponent)
      (visited visiting queue : List String),
      unvisited_cost (mk_adj comps) visited visiting + queue.length ≤ N →
      LoopInv comps sorted visited visiting queue →
      ∃ final, sort_loop (mk_adj comps) sorted visited visiting queue
          = some final ∧
        SortedOk final ∧ (final.map RawComponent.name).Nodup ∧
        (∀ c ∈ final, c ∈ comps) ∧
        (∀ n ∈ comps.map RawComponent.name,
          n ∈ final.map RawComponent.name) := by
  intro N
  induction N with
  | zero =>
      intro sorted visited visiting queue hN hinv
      have hq : queue = [] := by
        have h1 : queue.length = 0 := by omega
        exact List.length_eq_zero.mp h1
      subst hq
      rcases sort_loop_terminal comps sorted visited visiting hinv with
        ⟨p1, p2, p3, p4⟩
      exact ⟨sorted, by rw [sort_loop], p1, p2, p3, p4⟩
  | succ N ih =>
      intro sorted visited visiting queue hN hinv
      cases queue with
      | nil =>
          rcases sort_loop_terminal comps sorted visited visiting hinv with
            ⟨p1, p2, p3, p4⟩
          exact ⟨sorted, by rw [sort_loop], p1, p2, p3, p4⟩
      | cons n q =>
        by_cases hv : n ∈ visiting
        · -- emit: n must be the top sentinel with an exhausted segment
          rcases qinv_inversion hinv.qinv with ⟨hvs, _⟩ |
            ⟨u, vs', A, q', hvs, hq, hA, hreach, hdeps, hchain, hrest⟩
          · rw [hvs] at hv
            cases hv
          · cases A with
            | cons a A' =>
                exfalso
                rw [List.cons_append] at hq
                injection hq with h1 h2
                rw [hvs] at hv
                rcases List.mem_cons.mp hv with h0 | hnv
                · have hua := hreach a (List.mem_cons_self a A')
                  rw [← h1] at hua
                  rw [h0] at hua
                  exact hac u hua
                · have hup : Relation.TransGen (DepEdge comps) n u :=
                    hchain n hnv
                  have hdn : Relation.TransGen (DepEdge comps) u n := by
                    have hua := hreach a (List.mem_cons_self a A')
                    rw [← h1] at hua
                    exact hua
                  exact hac n (hup.trans hdn)
            | nil =>
                rw [List.nil_append] at hq
                injection hq with h1 h2
                subst h2
                obtain ⟨c, hcmem, hcname⟩ :=
                  name_mem_comp (hinv.vis_keys n hv)
                have hlk : lookup_last (mk_adj comps) n
                    = some (c, component_deps c.items) := by
                  have hx := mk_adj_lookup_of_nodup hnd hcmem
                  rw [hcname] at hx
                  exact hx
                have hdofn : deps_of_name comps n = component_deps c.items :=
                  deps_of_name_eq hlk
                have heq : sort_loop (mk_adj comps) sorted visited visiting
                    (n :: q) = sort_loop (mk_adj comps) (sorted ++ [c])
                      (n :: visited) (visiting.erase n) q := by
                  rw [sort_loop, dif_pos hv, hlk]
                have herase : visiting.erase n = vs' := by
                  rw [hvs, ← h1]
                  exact List.erase_cons_head n vs'
                have hnvisited : n ∉ visited := hinv.vis_disj n hv
                have hnsorted : n ∉ sorted.map RawComponent.name :=
                  fun hmem => hnvisited ((hinv.vis_eq n).mpr hmem)
                have hdepsn : ∀ d ∈ component_deps c.items,
                    d ∈ sorted.map RawComponent.name := by
                  intro d hdc
                  have hd' : d ∈ deps_of_name comps u := by
                    rw [← h1, hdofn]
                    exact hdc
                  rcases hdeps d hd' with h3 | h3 | h3
                  · exact (hinv.vis_eq d).mp h3
                  · cases h3
                  · cases h3
                have hvisnd := hinv.vis_nd
                rw [hvs] at hvisnd
                have hinv' : LoopInv comps (sorted ++ [c]) (n :: visited)
                    vs' q := by
                  refine ⟨SortedOk.snoc sorted c hinv.sorted_ok hdepsn,
                    ?_, ?_, ?_, ?_, ?_, ?_, ?_, ?_⟩
                  · -- vis_eq
                    intro x
                    rw [List.map_append]
                    simp only [List.map_cons, List.map_nil, List.mem_append,
                      List.mem_cons, List.mem_singleton, List.not_mem_nil,
                      or_false]
                    constructor
                    · intro hx
                      rcases hx with hx | hx
                      · right
                        rw [hx, hcname]
                      · left
                        exact (hinv.vis_eq x).mp hx
                    · intro hx
                      rcases hx with hx | hx
                      · exact Or.inr ((hinv.vis_eq x).mpr hx)
                      · left
                        rw [hx, hcname]
                  · -- sorted_nd
                    rw [List.map_append]
                    simp only [List.map_cons, List.map_nil]
                    rw [List.nodup_append]
                    refine ⟨hinv.sorted_nd, List.nodup_singleton _, ?_⟩
                    intro x hx hx2
                    rw [List.mem_singleton] at hx2
                    rw [hx2, hcname] at hx
                    exact hnsorted hx
                  · -- sorted_mem
                    intro c' hc'
                    rcases List.mem_append.mp hc' with h3 | h3
                    · exact hinv.sorted_mem c' h3
                    · rw [List.mem_singleton] at h3
                      rw [h3]
                      exact hcmem
                  · -- vis_keys
                    intro x hx
                    refine hinv.vis_keys x ?_
                    rw [hvs]
                    exact List.mem_cons_of_mem _ hx
                  · -- vis_nd
                    exact (List.nodup_cons.mp hvisnd).2
                  · -- vis_disj
                    intro x hx
                    have hxv : x ∈ visiting := by
                      rw [hvs]
                      exact List.mem_cons_of_mem _ hx
                    have h3 : x ∉ visited := hinv.vis_disj x hxv
                    have hne : x ≠ n := by
                      intro hxe
                      rw [← h1] at hvisnd
                      exact (List.nodup_cons.mp hvisnd).1 (hxe ▸ hx)
                    simp only [List.mem_cons, not_or]
                    exact ⟨hne, h3⟩
                  · -- cover
                    intro m hm
                    rcases hinv.cover m hm with h3 | h3 | h3
                    · exact Or.inl (List.mem_cons_of_mem _ h3)
                    · rw [hvs] at h3
                      rcases List.mem_cons.mp h3 with h4 | h4
                      · rw [h4, ← h1]
                        exact Or.inl (List.mem_cons_self _ _)
                      · exact Or.inr (Or.inl h4)
                    · rcases List.mem_cons.mp h3 with h4 | h4
                      · rw [h4]
                        exact Or.inl (List.mem_cons_self _ _)
                      · exact Or.inr (Or.inr h4)
                  · -- qinv
                    have hshift := qinv_shift (w := n) hrest [] ?_
                    · exact hshift
                    · rw [← h1]
                      rfl
                have hcost : unvisited_cost (mk_adj comps) (n :: visited) vs'
                    + q.length ≤ N := by
                  have hceq : unvisited_cost (mk_adj comps) (n :: visited) vs'
                      = unvisited_cost (mk_adj comps) visited visiting := by
                    apply unvisited_cost_congr
                    intro m
                    rw [hvs, ← h1]
                    constructor
                    · rintro (hm | hm)
                      · rcases List.mem_cons.mp hm with h4 | h4
                        · rw [h4]
                          exact Or.inr (List.mem_cons_self _ _)
                        · exact Or.inl h4
                      · exact Or.inr (List.mem_cons_of_mem _ hm)
                    · rintro (hm | hm)
                      · exact Or.inl (List.mem_cons_of_mem _ hm)
                      · rcases List.mem_cons.mp hm with h4 | h4
                        · rw [h4]
                          exact Or.inl (List.mem_cons_self _ _)
                        · exact Or.inr h4
                  rw [hceq]
                  simp only [List.length_cons] at hN
                  omega
                rcases ih (sorted ++ [c]) (n :: visited) vs' q hcost hinv'
                  with ⟨final, hrun, hp1, hp2, hp3, hp4⟩
                rw [heq, herase]
                exact ⟨final, hrun, hp1, hp2, hp3, hp4⟩
        · by_cases hd : n ∈ visited
          · -- skip: n already emitted
            have heq : sort_loop (mk_adj comps) sorted visited visiting
                (n :: q) = sort_loop (mk_adj comps) sorted visited visiting
                  q := by
              rw [sort_loop, dif_neg hv, dif_pos hd]
            have hqinv' : QInv comps visited [] visiting q := by
              rcases qinv_inversion hinv.qinv with ⟨hvs, hR⟩ |
                ⟨u, vs', A, q', hvs, hq, hA, hreach, hdeps, hchain, hrest⟩
              · subst hvs
                exact QInv.base [] q
                  (fun x hx => hR x (List.mem_cons_of_mem _ hx))
              · cases A with
                | nil =>
                    rw [List.nil_append] at hq
                    injection hq with h1 h2
                    exfalso
                    apply hv
                    rw [hvs, h1]
                    exact List.mem_cons_self _ _
                | cons a A' =>
                    rw [List.cons_append] at hq
                    injection hq with h1 h2
                    subst h2
                    rw [hvs]
                    refine QInv.step [] u vs' A' q'
                      (fun x hx => hA x (List.mem_cons_of_mem _ hx))
                      (fun x hx => hreach x (List.mem_cons_of_mem _ hx))
                      ?_ hchain hrest
                    intro d hdep
                    rcases hdeps d hdep with h3 | h3 | h3
                    · exact Or.inl h3
                    · rcases List.mem_cons.mp h3 with h4 | h4
                      · rw [h4, ← h1]
                        exact Or.inl hd
                      · exact Or.inr (Or.inl h4)
                    · cases h3
            have hinv' : LoopInv comps sorted visited visiting q := by
              refine ⟨hinv.sorted_ok, hinv.vis_eq, hinv.sorted_nd,
                hinv.sorted_mem, hinv.vis_keys, hinv.vis_nd, hinv.vis_disj,
                ?_, hqinv'⟩
              intro m hm
              rcases hinv.cover m hm with h3 | h3 | h3
              · exact Or.inl h3
              · exact Or.inr (Or.inl h3)
              · rcases List.mem_cons.mp h3 with h4 | h4
                · rw [h4]
                  exact Or.inl hd
                · exact Or.inr (Or.inr h4)
            have hcost : unvisited_cost (mk_adj comps) visited visiting
                + q.length ≤ N := by
              simp only [List.length_cons] at hN
              omega
            rcases ih sorted visited visiting q hcost hinv'
              with ⟨final, hrun, hp1, hp2, hp3, hp4⟩
            rw [heq]
            exact ⟨final, hrun, hp1, hp2, hp3, hp4⟩
          · -- first visit
            have hnames : n ∈ comps.map RawComponent.name := by
              rcases qinv_queue_mem hinv.qinv n (List.mem_cons_self n q)
                with h1 | h1
              · exact h1
              · exact absurd h1 hv
            obtain ⟨c, hcmem, hcname⟩ := name_mem_comp hnames
            have hlk : lookup_last (mk_adj comps) n
                = some (c, component_deps c.items) := by
              have hx := mk_adj_lookup_of_nodup hnd hcmem
              rw [hcname] at hx
              exact hx
            have hdofn : deps_of_name comps n = component_deps c.items :=
              deps_of_name_eq hlk
            have heq : sort_loop (mk_adj comps) sorted visited visiting
                (n :: q) = sort_loop (mk_adj comps) sorted visited
                  (n :: visiting) ((component_deps c.items).reverse
                    ++ n :: q) := by
              rw [sort_loop, dif_neg hv, dif_neg hd, hlk]
            have hqinv' : QInv comps visited [] (n :: visiting)
                ((component_deps c.items).reverse ++ n :: q) := by
              rcases qinv_inversion hinv.qinv with ⟨hvs, hR⟩ |
                ⟨u, vs', A, q', hvs, hq, hA, hreach, hdeps, hchain, hrest⟩
              · subst hvs
                refine QInv.step [] n []
                  (component_deps c.items).reverse q ?_ ?_ ?_ ?_ ?_
                · intro a ha
                  rw [List.mem_reverse] at ha
                  exact hcl c hcmem a ha
                · intro a ha
                  rw [List.mem_reverse] at ha
                  refine Relation.TransGen.single ?_
                  show a ∈ deps_of_name comps n
                  rw [hdofn]
                  exact ha
                · intro d hdep
                  rw [hdofn] at hdep
                  exact Or.inr (Or.inl (List.mem_reverse.mpr hdep))
                · intro x hx
                  cases hx
                · exact QInv.base [n] q
                    (fun x hx => hR x (List.mem_cons_of_mem _ hx))
              · cases A with
                | nil =>
                    rw [List.nil_append] at hq
                    injection hq with h1 h2
                    exfalso
                    apply hv
                    rw [hvs, h1]
                    exact List.mem_cons_self _ _
                | cons a A' =>
                    rw [List.cons_append] at hq
                    injection hq with h1 h2
                    subst h2
                    rw [hvs]
                    have hun : Relation.TransGen (DepEdge comps) u n := by
                      have hx := hreach a (List.mem_cons_self a A')
                      rw [← h1] at hx
                      exact hx
                    refine QInv.step [] n (u :: vs')
                      (component_deps c.items).reverse (A' ++ u :: q')
                      ?_ ?_ ?_ ?_ ?_
                    · intro x hx
                      rw [List.mem_reverse] at hx
                      exact hcl c hcmem x hx
                    · intro x hx
                      rw [List.mem_reverse] at hx
                      refine Relation.TransGen.single ?_
                      show x ∈ deps_of_name comps n
                      rw [hdofn]
                      exact hx
                    · intro d hdep
                      rw [hdofn] at hdep
                      exact Or.inr (Or.inl (List.mem_reverse.mpr hdep))
                    · intro x hx
                      rcases List.mem_cons.mp hx with h4 | h4
                      · rw [h4]
                        exact hun
                      · exact (hchain x h4).trans hun
                    · refine QInv.step [n] u vs' A' q'
                        (fun x hx => hA x (List.mem_cons_of_mem _ hx))
                        (fun x hx => hreach x (List.mem_cons_of_mem _ hx))
                        ?_ hchain ?_
                      · intro d hdep
                        rcases hdeps d hdep with h3 | h3 | h3
                        · exact Or.inl h3
                        · rcases List.mem_cons.mp h3 with h4 | h4
                          · rw [h4, ← h1]
                            exact Or.inr (Or.inr (List.mem_singleton.mpr rfl))
                          · exact Or.inr (Or.inl h4)
                        · cases h3
                      · exact qinv_uppers_append [n] hrest
            have hinv' : LoopInv comps sorted visited (n :: visiting)
                ((component_deps c.items).reverse ++ n :: q) := by
              refine ⟨hinv.sorted_ok, hinv.vis_eq, hinv.sorted_nd,
                hinv.sorted_mem, ?_, ?_, ?_, ?_, hqinv'⟩
              · intro x hx
                rcases List.mem_cons.mp hx with h4 | h4
                · rw [h4]
                  exact hnames
                · exact hinv.vis_keys x h4
              · exact List.nodup_cons.mpr ⟨hv, hinv.vis_nd⟩
              · intro x hx
                rcases List.mem_cons.mp hx with h4 | h4
                · rw [h4]
                  exact hd
                · exact hinv.vis_disj x h4
              · intro m hm
                rcases hinv.cover m hm with h3 | h3 | h3
                · exact Or.inl h3
                · exact Or.inr (Or.inl (List.mem_cons_of_mem _ h3))
                · rcases List.mem_cons.mp h3 with h4 | h4
                  · rw [h4]
                    exact Or.inr (Or.inl (List.mem_cons_self _ _))
                  · exact Or.inr (Or.inr (List.mem_append_right _
                      (List.mem_cons_of_mem _ h4)))
            have hcost : unvisited_cost (mk_adj comps) visited (n :: visiting)
                + ((component_deps c.items).reverse ++ n :: q).length ≤ N := by
              have hfv := unvisited_cost_first_visit (mk_adj comps) hd hv hlk
              have hproj : ((c, component_deps c.items) :
                  RawComponent × List String).2.length
                  = (component_deps c.items).length := rfl
              simp only [List.length_append, List.length_reverse,
                List.length_cons] at hN ⊢
              omega
            rcases ih sorted visited (n :: visiting)
              ((component_deps c.items).reverse ++ n :: q) hcost hinv'
              with ⟨final, hrun, hp1, hp2, hp3, hp4⟩
            rw [heq]
            exact ⟨final, hrun, hp1, hp2, hp3, hp4⟩

end Fefix

namespace Fefix

/-- C1: For every well-formed acyclic input document (distinct component
names, all referenced components defined, no dependency cycle),
`Fix::topologically_sort_components` succeeds, keeps exactly the source
components (as a permutation of their names), and orders them so that
whenever a component's layout (including layouts nested inside its
groups) references component D, D appears strictly before it; import
then registers components in exactly this order. -/
theorem c1_component_dependency_order (fix : Fix)
    (hnd : (fix.components.map RawComponent.name).Nodup)
    (hcl : ∀ c ∈ fix.components, ∀ d ∈ component_deps c.items,
        d ∈ fix.components.map RawComponent.name)
    (hac : ∀ n, ¬ Relation.TransGen (DepEdge fix.components) n n) :
    ∃ sorted, fix.topologically_sort_components = some sorted ∧
      (sorted.map RawComponent.name).Perm
        (fix.components.map RawComponent.name) ∧
      ∀ (l1 : List RawComponent) (c : RawComponent)
        (l2 : List RawComponent), sorted = l1 ++ c :: l2 →
        ∀ d ∈ component_deps c.items, d ∈ l1.map RawComponent.name := by
  have hinv : LoopInv fix.components [] [] []
      ((fix.components.map RawComponent.name).reverse) := by
    refine ⟨SortedOk.nil, ?_, List.nodup_nil, ?_, ?_, List.nodup_nil,
      ?_, ?_, ?_⟩
    · intro x
      simp
    · intro c hc
      cases hc
    · intro x hx
      cases hx
    · intro x hx
      cases hx
    · intro n hn
      exact Or.inr (Or.inr (List.mem_reverse.mpr hn))
    · exact QInv.base [] _ (fun x hx => List.mem_reverse.mp hx)
  rcases sort_loop_sound fix.components hnd hcl hac
      (unvisited_cost (mk_adj fix.components) [] []
        + ((fix.components.map RawComponent.name).reverse).length)
      [] [] [] ((fix.components.map RawComponent.name).reverse)
      (le_refl _) hinv with ⟨final, hrun, hok, hfnd, hfmem, hfcov⟩
  refine ⟨final, hrun, ?_, ?_⟩
  · refine nodup_perm_of_mem_iff hfnd hnd ?_
    intro x
    constructor
    · intro hx
      rcases List.mem_map.mp hx with ⟨c, hc, hcx⟩
      exact List.mem_map.mpr ⟨c, hfmem c hc, hcx⟩
    · exact hfcov x
  · exact sortedok_split hok

/-- Witness for C1 on the concrete two-component document `wit_doc`
("Outer" references "Inner"). -/
theorem c1_component_dependency_order_witness :
    ∃ sorted, wit_doc.topologically_sort_components = some sorted ∧
      (sorted.map RawComponent.name).Perm
        (wit_doc.components.map RawComponent.name) ∧
      ∀ (l1 : List RawComponent) (c : RawComponent)
        (l2 : List RawComponent), sorted = l1 ++ c :: l2 →
        ∀ d ∈ component_deps c.items, d ∈ l1.map RawComponent.name := by
  have hedge : ∀ a b, DepEdge wit_doc.components a b →
      a = "Outer" ∧ b = "Inner" := by
    intro a b h
    by_cases ha1 : a = "Outer"
    · subst ha1
      have hdn : deps_of_name wit_doc.components "Outer" = ["Inner"] := by
        simp [deps_of_name, mk_adj, lookup_last, wit_doc,
          component_deps, deps_loop]
      rw [DepEdge, hdn] at h
      rw [List.mem_singleton] at h
      exact ⟨rfl, h⟩
    · exfalso
      by_cases ha2 : a = "Inner"
      · subst ha2
        have hdn : deps_of_name wit_doc.components "Inner" = [] := by
          simp [deps_of_name, mk_adj, lookup_last, wit_doc,
            component_deps, deps_loop]
        rw [DepEdge, hdn] at h
        cases h
      · have hne1 : ("Inner" = a) = False :=
          eq_false (fun h1 => ha2 h1.symm)
        have hne2 : ("Outer" = a) = False :=
          eq_false (fun h1 => ha1 h1.symm)
        have hdn : deps_of_name wit_doc.components a = [] := by
          simp [deps_of_name, mk_adj, lookup_last, wit_doc,
            component_deps, deps_loop, hne1, hne2]
        rw [DepEdge, hdn] at h
        cases h
  have htg : ∀ x y, Relation.TransGen (DepEdge wit_doc.components) x y →
      x = "Outer" ∧ y = "Inner" := by
    intro x y h
    induction h with
    | single h1 => exact hedge _ _ h1
    | tail h1 h2 ih =>
        rcases ih with ⟨hx, hy⟩
        rcases hedge _ _ h2 with ⟨hb, hc⟩
        rw [hy] at hb
        exact absurd hb (by decide)
  exact c1_component_dependency_order wit_doc (by decide)
    (by
      intro c hc d hd
      simp only [wit_doc, List.mem_cons, List.not_mem_nil, or_false]
        at hc
      rcases hc with rfl | rfl
      · simp only [component_deps, deps_loop, List.reverse_cons,
          List.reverse_nil, List.nil_append] at hd
        rw [List.mem_singleton] at hd
        subst hd
        decide
      · simp [component_deps, deps_loop] at hd)
    (by
      intro n hn
      rcases htg n n hn with ⟨h1, h2⟩
      rw [h1] at h2
      exact absurd h2 (by decide))

end Fefix
